import Mathlib

set_option maxHeartbeats 1000000

/-!
Shallow embedding of the maze solver in `src/project.py`: the grid model
(`Maze`, `in_bounds`, `passable`, `neighbors`), the two search operations
(`bfs`, `dfs`) and the path reconstruction routine (`reconstruct_path`),
together with machine-checked verification of the specified properties.

Cells are integer pairs, as in the Python source.  Python's fallible
sequence indexing is modelled by `pyGet` (`none` models an `IndexError`),
and the `ValueError` raised by `Maze.__init__` is modelled by `MazeErr`.
-/

abbrev Cell := Int × Int

inductive MazeErr where
  | indexError
  | valueError
deriving DecidableEq

structure Maze where
  grid : List (List Char)
  rows : Nat
  cols : Nat
  start : Cell
  goal : Cell
deriving DecidableEq

/-- Python sequence indexing `l[i]`: a negative index in `[-len l, 0)` wraps
to `len l + i`; an index outside `[-len l, len l)` raises `IndexError`,
modelled as `none`. -/
def pyGet {α : Type} (l : List α) (i : Int) : Option α :=
  if 0 ≤ i ∧ i < (l.length : Int) then l.get? i.toNat
  else if -(l.length : Int) ≤ i ∧ i < 0 then l.get? (i + l.length).toNat
  else none

/-- `Maze.in_bounds` from the source: `0 <= r < self.rows and 0 <= c < self.cols`. -/
def Maze.in_bounds (m : Maze) (pos : Cell) : Bool :=
  decide (0 ≤ pos.1 ∧ pos.1 < (m.rows : Int) ∧ 0 ≤ pos.2 ∧ pos.2 < (m.cols : Int))

/-- `Maze.passable` from the source: `self.grid[r][c] != "#"`, with Python
indexing semantics (no bounds check of its own). -/
def Maze.passable (m : Maze) (pos : Cell) : Option Bool :=
  (pyGet m.grid pos.1).bind fun row => (pyGet row pos.2).map fun ch => ch != '#'

/-- `Maze.neighbors` from the source: for each direction in
`[(-1,0), (1,0), (0,-1), (0,1)]`, yield `pos + d` when it is in bounds and
passable (the bounds test short-circuits, so `passable` is only consulted on
in-bounds cells, where it cannot raise). -/
def Maze.neighbors (m : Maze) (pos : Cell) : List Cell :=
  ([(-1, 0), (1, 0), (0, -1), (0, 1)] : List (Int × Int)).filterMap fun d =>
    let np : Cell := (pos.1 + d.1, pos.2 + d.2)
    if m.in_bounds np = true ∧ m.passable np = some true then some np else none

/-- All row/column index pairs scanned by the `Maze.__init__` loops, in order. -/
def allIdx (rows cols : Nat) : List (Nat × Nat) :=
  (List.range rows).flatMap fun r => (List.range cols).map fun c => (r, c)

/-- `len(grid[0]) if rows > 0 else 0` from `Maze.__init__`. -/
def gridCols (grid : List (List Char)) : Nat :=
  match grid with
  | [] => 0
  | row :: _ => row.length

/-- The character `grid[r][c]`, `none` when the access is out of range
(only possible for `c ≥ len(grid[r])` during the scan). -/
def cellAt (grid : List (List Char)) (rc : Nat × Nat) : Option Char :=
  (grid.get? rc.1).bind fun row => row.get? rc.2

/-- One step of the `Maze.__init__` scan: read `grid[r][c]` (possibly an
`IndexError` when the row is shorter than `grid[0]`), and update the held
start/goal positions when the character is `'S'` resp. `'G'` (a later marker
overwrites an earlier one). -/
def scanStep (grid : List (List Char)) (acc : Option Cell × Option Cell) (rc : Nat × Nat) :
    Except MazeErr (Option Cell × Option Cell) :=
  match cellAt grid rc with
  | none => .error .indexError
  | some ch =>
      if ch = 'S' then .ok (some ((rc.1 : Int), (rc.2 : Int)), acc.2)
      else if ch = 'G' then .ok (acc.1, some ((rc.1 : Int), (rc.2 : Int)))
      else .ok acc

/-- `Maze.__init__` from the source: record `rows` and `cols`
(`len(grid[0]) if rows > 0 else 0`), scan every `(r, c)` with `r < rows`,
`c < cols` for the markers, and raise `ValueError` when no `'S'` or no `'G'`
was seen.  No other validation is performed. -/
def mkMaze (grid : List (List Char)) : Except MazeErr Maze :=
  match (allIdx grid.length (gridCols grid)).foldlM (scanStep grid) (none, none) with
  | .error e => .error e
  | .ok (some s, some g) => .ok ⟨grid, grid.length, gridCols grid, s, g⟩
  | .ok (_, _) => .error .valueError

/-! ## Path reconstruction (`reconstruct_path` in the source)

The Python `while cur != start` loop has no step bound, so the embedding
carries an explicit fuel parameter; `ReconResult.fuelOut` marks a run that
was still looping when the fuel ran out (for every fuel value, on a
divergent input).  `absent` is Python's `None` result, `keyError` the
`KeyError` raised when a predecessor is missing from the map.  The loop
variable `cur` and the accumulated `path` hold Python values that may be
`None`, hence `Option Cell`. -/

inductive ReconResult where
  | found (p : List (Option Cell))
  | absent
  | keyError
  | fuelOut
deriving DecidableEq

/-- The `while cur != start` loop of `reconstruct_path`:
`cur = came_from[cur]; path.append(cur)` until `cur == start`, then
`path.reverse(); return path`. -/
def reconLoop (cf : List (Cell × Option Cell)) (startv : Option Cell) :
    Nat → Option Cell → List (Option Cell) → ReconResult
  | 0, _, _ => .fuelOut
  | fuel + 1, cur, path =>
    if cur = startv then .found path.reverse
    else
      match cur with
      | none => .keyError
      | some c =>
        match List.lookup c cf with
        | none => .keyError
        | some v => reconLoop cf startv fuel v (path ++ [v])

/-- `reconstruct_path` from the source: `None` (here `absent`) when `goal`
is not a key of `came_from`, otherwise the backward walk from `goal`. -/
def reconstruct_path (cf : List (Cell × Option Cell)) (start goal : Cell)
    (fuel : Nat) : ReconResult :=
  if List.lookup goal cf = none then .absent
  else reconLoop cf (some start) fuel (some goal) [some goal]

/-- The backward walk of `reconstruct_path` never terminates on this input:
it is still running whatever fuel it is given. -/
def reconDiverges (cf : List (Cell × Option Cell)) (start goal : Cell) : Prop :=
  ∀ fuel, reconstruct_path cf start goal fuel = .fuelOut

/-! ## Spec-side vocabulary for the neighbor relation -/

/-- The four cells one unit away from `pos`, in the source's direction
order: up, down, left, right. -/
def adjacentCells (pos : Cell) : List Cell :=
  [(pos.1 - 1, pos.2), (pos.1 + 1, pos.2), (pos.1, pos.2 - 1), (pos.1, pos.2 + 1)]

/-- `b` differs from `a` by exactly one unit in exactly one coordinate. -/
def UnitMove (a b : Cell) : Prop :=
  (b.1 - a.1).natAbs + (b.2 - a.2).natAbs = 1

/-- Stated from the spec's words, for comparison with `Maze.neighbors`:
"yields only in-bounds, passable adjacent cells, in the fixed order
up/down/left/right". -/
def neighborsSpec (m : Maze) (pos : Cell) : List Cell :=
  (adjacentCells pos).filter fun np =>
    decide (m.in_bounds np = true ∧ m.passable np = some true)

/-! ## Basic lemmas about the grid model -/

theorem mem_allIdx {rows cols : Nat} {rc : Nat × Nat} :
    rc ∈ allIdx rows cols ↔ rc.1 < rows ∧ rc.2 < cols := by
  cases rc with
  | mk r c =>
    simp [allIdx, List.mem_flatMap, List.mem_range, List.mem_map]

theorem pyGet_of_nonneg {α : Type} {l : List α} {i : Int} (h0 : 0 ≤ i)
    (hlt : i < (l.length : Int)) : pyGet l i = l.get? i.toNat := by
  simp [pyGet, h0, hlt]

theorem pyGet_of_neg {α : Type} {l : List α} {i : Int} (h0 : i < 0)
    (hge : -(l.length : Int) ≤ i) : pyGet l i = l.get? (i + l.length).toNat := by
  have : ¬ (0 ≤ i ∧ i < (l.length : Int)) := by omega
  simp [pyGet, this, h0, hge]

theorem pyGet_none_of_big {α : Type} {l : List α} {i : Int}
    (h : (l.length : Int) ≤ i ∨ i < -(l.length : Int)) : pyGet l i = none := by
  have h1 : ¬ (0 ≤ i ∧ i < (l.length : Int)) := by omega
  have h2 : ¬ (-(l.length : Int) ≤ i ∧ i < 0) := by omega
  simp [pyGet, h1, h2]

theorem pyGet_wrap {α : Type} {l : List α} {i : Int} (hge : -(l.length : Int) ≤ i)
    (hlt : i < (l.length : Int)) : pyGet l i = l.get? (i % (l.length : Int)).toNat := by
  have hpos : 0 < (l.length : Int) := by omega
  rcases le_or_lt 0 i with h0 | h0
  · rw [pyGet_of_nonneg h0 hlt, Int.emod_eq_of_lt h0 hlt]
  · rw [pyGet_of_neg h0 hge]
    have h3 : (i + (l.length : Int) * 1) % (l.length : Int) = i % (l.length : Int) :=
      Int.add_mul_emod_self_left i ((l.length : Int)) 1
    rw [mul_one] at h3
    have h1 : 0 ≤ i + (l.length : Int) := by omega
    have h2 : i + (l.length : Int) < (l.length : Int) := by omega
    rw [← h3, Int.emod_eq_of_lt h1 h2]

theorem mem_neighbors {m : Maze} {pos np : Cell} :
    np ∈ m.neighbors pos ↔
      UnitMove pos np ∧ m.in_bounds np = true ∧ m.passable np = some true := by
  constructor
  · intro h
    simp only [Maze.neighbors, List.mem_filterMap] at h
    obtain ⟨d, hd, hnp⟩ := h
    split_ifs at hnp with hc
    injection hnp with hnp
    subst hnp
    refine ⟨?_, hc.1, hc.2⟩
    fin_cases hd <;> simp only [UnitMove] <;> omega
  · rintro ⟨hu, hb, hp⟩
    simp only [Maze.neighbors, List.mem_filterMap]
    have hd : (np.1 - pos.1, np.2 - pos.2) ∈
        ([(-1, 0), (1, 0), (0, -1), (0, 1)] : List (Int × Int)) := by
      rw [UnitMove] at hu
      have : (np.1 - pos.1 = -1 ∧ np.2 - pos.2 = 0) ∨
          (np.1 - pos.1 = 1 ∧ np.2 - pos.2 = 0) ∨
          (np.1 - pos.1 = 0 ∧ np.2 - pos.2 = -1) ∨
          (np.1 - pos.1 = 0 ∧ np.2 - pos.2 = 1) := by omega
      rcases this with ⟨h1, h2⟩ | ⟨h1, h2⟩ | ⟨h1, h2⟩ | ⟨h1, h2⟩ <;>
        simp [h1, h2]
    refine ⟨(np.1 - pos.1, np.2 - pos.2), hd, ?_⟩
    have hnp : (pos.1 + (np.1 - pos.1), pos.2 + (np.2 - pos.2)) = np := by
      cases np; simp
    simp only [hnp]
    simp [hb, hp]

theorem filterMap_guard {α β : Type} (P : β → Prop) [DecidablePred P] (g : α → β) :
    ∀ l : List α, (l.filterMap fun a => if P (g a) then some (g a) else none)
      = (l.map g).filter fun b => decide (P b)
  | [] => rfl
  | a :: l => by
    by_cases h : P (g a) <;> simp [filterMap_guard P g l, h]

theorem neighbors_eq_spec (m : Maze) (pos : Cell) :
    m.neighbors pos = neighborsSpec m pos := by
  have h := filterMap_guard
      (fun np : Cell => m.in_bounds np = true ∧ m.passable np = some true)
      (fun d : Int × Int => ((pos.1 + d.1, pos.2 + d.2) : Cell))
      ([(-1, 0), (1, 0), (0, -1), (0, 1)])
  have hmap : (([(-1, 0), (1, 0), (0, -1), (0, 1)] : List (Int × Int)).map
      fun d : Int × Int => ((pos.1 + d.1, pos.2 + d.2) : Cell)) = adjacentCells pos := by
    have e1 : pos.1 + (-1 : Int) = pos.1 - 1 := by ring
    have e3 : pos.2 + (-1 : Int) = pos.2 - 1 := by ring
    simp [adjacentCells, e1, e3]
  rw [Maze.neighbors, neighborsSpec, ← hmap]
  exact h

theorem adjacentCells_nodup (pos : Cell) : (adjacentCells pos).Nodup := by
  cases pos with
  | mk r c =>
    simp [adjacentCells, List.nodup_cons, Prod.ext_iff]
    omega

theorem neighbors_nodup (m : Maze) (pos : Cell) : (m.neighbors pos).Nodup := by
  rw [neighbors_eq_spec]
  exact (adjacentCells_nodup pos).filter _

/-! ## The construction scan -/

/-- Some scanned position raises `IndexError` (a row shorter than `grid[0]`). -/
def ScanBad (grid : List (List Char)) : Prop :=
  ∃ rc ∈ allIdx grid.length (gridCols grid), cellAt grid rc = none

/-- The scanned region contains the character `ch`. -/
def HasMark (grid : List (List Char)) (ch : Char) : Prop :=
  ∃ rc ∈ allIdx grid.length (gridCols grid), cellAt grid rc = some ch

instance scanBadDec (grid : List (List Char)) : Decidable (ScanBad grid) := by
  unfold ScanBad; infer_instance

instance hasMarkDec (grid : List (List Char)) (ch : Char) : Decidable (HasMark grid ch) := by
  unfold HasMark; infer_instance

theorem foldlM_scan_error {grid : List (List Char)} :
    ∀ (l : List (Nat × Nat)) (acc : Option Cell × Option Cell),
      (∃ rc ∈ l, cellAt grid rc = none) →
      l.foldlM (scanStep grid) acc = .error .indexError
  | [], _, h => by simp at h
  | rc :: l, acc, h => by
    rw [List.foldlM_cons]
    cases hc : cellAt grid rc with
    | none =>
      have : scanStep grid acc rc = .error .indexError := by
        rw [scanStep, hc]
      rw [this]
      rfl
    | some ch =>
      have hl : ∃ rc ∈ l, cellAt grid rc = none := by
        obtain ⟨rc', hrc', hnone⟩ := h
        rcases List.mem_cons.mp hrc' with rfl | hmem
        · rw [hc] at hnone; exact absurd hnone (by simp)
        · exact ⟨rc', hmem, hnone⟩
      rw [scanStep, hc]
      by_cases hS : ch = 'S'
      · simp only [hS, if_pos rfl]
        exact foldlM_scan_error l _ hl
      · by_cases hG : ch = 'G'
        · simp only [if_neg hS, hG, if_pos rfl]
          exact foldlM_scan_error l _ hl
        · simp only [if_neg hS, if_neg hG]
          exact foldlM_scan_error l _ hl

theorem foldlM_scan_ok {grid : List (List Char)} :
    ∀ (l : List (Nat × Nat)) (acc : Option Cell × Option Cell),
      (∀ rc ∈ l, cellAt grid rc ≠ none) →
      ∃ s g, l.foldlM (scanStep grid) acc = .ok (s, g) ∧
        (s ≠ none ↔ (acc.1 ≠ none ∨ ∃ rc ∈ l, cellAt grid rc = some 'S')) ∧
        (g ≠ none ↔ (acc.2 ≠ none ∨ ∃ rc ∈ l, cellAt grid rc = some 'G')) ∧
        (∀ pos, s = some pos → (acc.1 = some pos ∨
          ∃ rc ∈ l, cellAt grid rc = some 'S' ∧ pos = ((rc.1 : Int), (rc.2 : Int)))) ∧
        (∀ pos, g = some pos → (acc.2 = some pos ∨
          ∃ rc ∈ l, cellAt grid rc = some 'G' ∧ pos = ((rc.1 : Int), (rc.2 : Int))))
  | [], acc, _ => by
    refine ⟨acc.1, acc.2, by rfl, by simp, by simp, ?_, ?_⟩ <;> simp
  | rc :: l, acc, h => by
    have hrc := h rc (by simp)
    cases hc : cellAt grid rc with
    | none => exact absurd hc hrc
    | some ch =>
      have hl : ∀ rc' ∈ l, cellAt grid rc' ≠ none := fun rc' hm => h rc' (by simp [hm])
      rw [List.foldlM_cons, scanStep, hc]
      by_cases hS : ch = 'S'
      · subst hS
        simp only [if_pos rfl]
        obtain ⟨s, g, hrun, hs, hg, hps, hpg⟩ :=
          foldlM_scan_ok l (some ((rc.1 : Int), (rc.2 : Int)), acc.2) hl
        refine ⟨s, g, hrun, ?_, ?_, ?_, ?_⟩
        · simp only at hs
          constructor
          · intro _
            exact Or.inr ⟨rc, by simp, hc⟩
          · intro _
            exact hs.mpr (Or.inl (by simp))
        · simp only at hg
          rw [hg]
          constructor
          · rintro (h1 | ⟨rc', hm, he⟩)
            · exact Or.inl h1
            · exact Or.inr ⟨rc', by simp [hm], he⟩
          · rintro (h1 | ⟨rc', hm, he⟩)
            · exact Or.inl h1
            · rcases List.mem_cons.mp hm with rfl | hm'
              · rw [hc] at he
                exact absurd he (by simp)
              · exact Or.inr ⟨rc', hm', he⟩
        · intro pos hpos
          rcases hps pos hpos with h1 | ⟨rc', hm, he, hpe⟩
          · simp only [Option.some.injEq] at h1
            exact Or.inr ⟨rc, by simp, hc, h1.symm⟩
          · exact Or.inr ⟨rc', by simp [hm], he, hpe⟩
        · intro pos hpos
          rcases hpg pos hpos with h1 | ⟨rc', hm, he, hpe⟩
          · exact Or.inl h1
          · exact Or.inr ⟨rc', by simp [hm], he, hpe⟩
      · by_cases hG : ch = 'G'
        · subst hG
          simp only [if_neg hS, if_pos rfl]
          obtain ⟨s, g, hrun, hs, hg, hps, hpg⟩ :=
            foldlM_scan_ok l (acc.1, some ((rc.1 : Int), (rc.2 : Int))) hl
          refine ⟨s, g, hrun, ?_, ?_, ?_, ?_⟩
          · simp only at hs
            rw [hs]
            constructor
            · rintro (h1 | ⟨rc', hm, he⟩)
              · exact Or.inl h1
              · exact Or.inr ⟨rc', by simp [hm], he⟩
            · rintro (h1 | ⟨rc', hm, he⟩)
              · exact Or.inl h1
              · rcases List.mem_cons.mp hm with rfl | hm'
                · rw [hc] at he
                  have : ¬ ('G' = 'S') := by decide
                  exact absurd (Option.some.inj he) this
                · exact Or.inr ⟨rc', hm', he⟩
          · simp only at hg
            constructor
            · intro _
              exact Or.inr ⟨rc, by simp, hc⟩
            · intro _
              exact hg.mpr (Or.inl (by simp))
          · intro pos hpos
            rcases hps pos hpos with h1 | ⟨rc', hm, he, hpe⟩
            · exact Or.inl h1
            · exact Or.inr ⟨rc', by simp [hm], he, hpe⟩
          · intro pos hpos
            rcases hpg pos hpos with h1 | ⟨rc', hm, he, hpe⟩
            · simp only [Option.some.injEq] at h1
              exact Or.inr ⟨rc, by simp, hc, h1.symm⟩
            · exact Or.inr ⟨rc', by simp [hm], he, hpe⟩
        · simp only [if_neg hS, if_neg hG]
          obtain ⟨s, g, hrun, hs, hg, hps, hpg⟩ := foldlM_scan_ok l acc hl
          refine ⟨s, g, hrun, ?_, ?_, ?_, ?_⟩
          · rw [hs]
            constructor
            · rintro (h1 | ⟨rc', hm, he⟩)
              · exact Or.inl h1
              · exact Or.inr ⟨rc', by simp [hm], he⟩
            · rintro (h1 | ⟨rc', hm, he⟩)
              · exact Or.inl h1
              · rcases List.mem_cons.mp hm with rfl | hm'
                · rw [hc] at he
                  exact absurd (Option.some.inj he) hS
                · exact Or.inr ⟨rc', hm', he⟩
          · rw [hg]
            constructor
            · rintro (h1 | ⟨rc', hm, he⟩)
              · exact Or.inl h1
              · exact Or.inr ⟨rc', by simp [hm], he⟩
            · rintro (h1 | ⟨rc', hm, he⟩)
              · exact Or.inl h1
              · rcases List.mem_cons.mp hm with rfl | hm'
                · rw [hc] at he
                  exact absurd (Option.some.inj he) hG
                · exact Or.inr ⟨rc', hm', he⟩
          · intro pos hpos
            rcases hps pos hpos with h1 | ⟨rc', hm, he, hpe⟩
            · exact Or.inl h1
            · exact Or.inr ⟨rc', by simp [hm], he, hpe⟩
          · intro pos hpos
            rcases hpg pos hpos with h1 | ⟨rc', hm, he, hpe⟩
            · exact Or.inl h1
            · exact Or.inr ⟨rc', by simp [hm], he, hpe⟩

theorem mkMaze_indexError_iff (grid : List (List Char)) :
    mkMaze grid = .error .indexError ↔ ScanBad grid := by
  constructor
  · intro h
    by_contra hbad
    have hok : ∀ rc ∈ allIdx grid.length (gridCols grid), cellAt grid rc ≠ none := by
      intro rc hm hnone
      exact hbad ⟨rc, hm, hnone⟩
    obtain ⟨s, g, hrun, _⟩ := foldlM_scan_ok (allIdx grid.length (gridCols grid)) (none, none) hok
    rw [mkMaze, hrun] at h
    cases s <;> cases g <;> simp_all
  · intro hbad
    rw [mkMaze, foldlM_scan_error _ _ hbad]

theorem mkMaze_valueError_iff (grid : List (List Char)) :
    mkMaze grid = .error .valueError ↔
      ¬ ScanBad grid ∧ (¬ HasMark grid 'S' ∨ ¬ HasMark grid 'G') := by
  by_cases hbad : ScanBad grid
  · rw [mkMaze, foldlM_scan_error _ _ hbad]
    simp [hbad]
  · have hok : ∀ rc ∈ allIdx grid.length (gridCols grid), cellAt grid rc ≠ none := by
      intro rc hm hnone
      exact hbad ⟨rc, hm, hnone⟩
    obtain ⟨s, g, hrun, hs, hg, _⟩ :=
      foldlM_scan_ok (allIdx grid.length (gridCols grid)) (none, none) hok
    simp only [Option.ne_none_iff_isSome, ne_eq, false_or] at hs hg
    rw [mkMaze, hrun]
    cases s with
    | none =>
      have : ¬ HasMark grid 'S' := by
        intro hm
        have := hs.mpr (by simp [HasMark] at hm ⊢; exact hm)
        simp at this
      simp [hbad, this, HasMark] at *
      exact Or.inl this
    | some spos =>
      cases g with
      | none =>
        have : ¬ HasMark grid 'G' := by
          intro hm
          have := hg.mpr (by simp [HasMark] at hm ⊢; exact hm)
          simp at this
        simp [hbad, this, HasMark] at *
        exact Or.inr this
      | some gpos =>
        have hS : HasMark grid 'S' := by
          have := hs.mp (by simp)
          simpa [HasMark] using this
        have hG : HasMark grid 'G' := by
          have := hg.mp (by simp)
          simpa [HasMark] using this
        simp [hbad, hS, hG]

theorem mkMaze_ok_iff (grid : List (List Char)) :
    (∃ m, mkMaze grid = .ok m) ↔
      ¬ ScanBad grid ∧ HasMark grid 'S' ∧ HasMark grid 'G' := by
  rcases h : mkMaze grid with e | m
  · cases e
    · rw [mkMaze_indexError_iff] at h
      simp [h]
    · rw [mkMaze_valueError_iff] at h
      constructor
      · rintro ⟨m, hm⟩
        exact absurd hm (by simp)
      · rintro ⟨_, hS, hG⟩
        tauto
  · constructor
    · intro _
      constructor
      · intro hbad
        have := (mkMaze_indexError_iff grid).mpr hbad
        rw [h] at this
        exact absurd this (by simp)
      · by_contra hcon
        rw [not_and_or] at hcon
        have := (mkMaze_valueError_iff grid).mpr ⟨?_, ?_⟩
        · rw [h] at this
          exact absurd this (by simp)
        · intro hbad
          have := (mkMaze_indexError_iff grid).mpr hbad
          rw [h] at this
          exact absurd this (by simp)
        · tauto
    · intro _
      exact ⟨m, rfl⟩

/-- Facts that hold of every maze produced by `mkMaze`: the recorded shape
matches the grid, every row reaches at least `cols` cells (later rows may be
longer), and the recorded start and goal are in-bounds passable cells. -/
structure MazeWF (m : Maze) : Prop where
  rows_def : m.rows = m.grid.length
  cols_def : m.cols = gridCols m.grid
  row_len : ∀ r, ∀ row, m.grid.get? r = some row → m.cols ≤ row.length
  start_bounds : m.in_bounds m.start = true
  goal_bounds : m.in_bounds m.goal = true
  start_pass : m.passable m.start = some true
  goal_pass : m.passable m.goal = some true

theorem marker_bounds_pass {grid : List (List Char)} {rc : Nat × Nat} {ch : Char}
    (hm : rc ∈ allIdx grid.length (gridCols grid)) (hc : cellAt grid rc = some ch)
    (hch : (ch != '#') = true) (m : Maze) (hgrid : m.grid = grid)
    (hrows : m.rows = grid.length) (hcols : m.cols = gridCols grid) :
    m.in_bounds ((rc.1 : Int), (rc.2 : Int)) = true ∧
      m.passable ((rc.1 : Int), (rc.2 : Int)) = some true := by
  obtain ⟨h1, h2⟩ := mem_allIdx.mp hm
  obtain ⟨row, hrow, hcell⟩ : ∃ row, grid.get? rc.1 = some row ∧ row.get? rc.2 = some ch := by
    rw [cellAt] at hc
    cases hg : grid.get? rc.1 with
    | none => rw [hg] at hc; simp at hc
    | some row => rw [hg] at hc; exact ⟨row, rfl, hc⟩
  have hc2 : rc.2 < row.length := by
    rcases List.get?_eq_some.mp hcell with ⟨h, _⟩
    exact h
  have hg1 : pyGet grid ((rc.1 : Nat) : Int) = some row := by
    rw [pyGet_of_nonneg (Int.natCast_nonneg _) (by exact_mod_cast h1)]
    simpa using hrow
  have hg2 : pyGet row ((rc.2 : Nat) : Int) = some ch := by
    rw [pyGet_of_nonneg (Int.natCast_nonneg _) (by exact_mod_cast hc2)]
    simpa using hcell
  constructor
  · simp [Maze.in_bounds, hrows, hcols]
    omega
  · simp [Maze.passable, hgrid, hg1, hg2, hch]

theorem mkMaze_wf {grid : List (List Char)} {m : Maze} (h : mkMaze grid = .ok m) :
    m.grid = grid ∧ MazeWF m := by
  have hnotbad : ¬ ScanBad grid := ((mkMaze_ok_iff grid).mp ⟨m, h⟩).1
  have hok : ∀ rc ∈ allIdx grid.length (gridCols grid), cellAt grid rc ≠ none := by
    intro rc hm hnone
    exact hnotbad ⟨rc, hm, hnone⟩
  obtain ⟨s, g, hrun, hs, hg, hps, hpg⟩ :=
    foldlM_scan_ok (allIdx grid.length (gridCols grid)) (none, none) hok
  rw [mkMaze, hrun] at h
  cases s with
  | none => simp at h
  | some spos =>
    cases g with
    | none => simp at h
    | some gpos =>
      simp only [Except.ok.injEq] at h
      subst h
      obtain ⟨rcS, hmS, hcS, hpeS⟩ : ∃ rc ∈ allIdx grid.length (gridCols grid),
          cellAt grid rc = some 'S' ∧ spos = ((rc.1 : Int), (rc.2 : Int)) := by
        rcases hps spos rfl with h1 | h1
        · simp at h1
        · exact h1
      obtain ⟨rcG, hmG, hcG, hpeG⟩ : ∃ rc ∈ allIdx grid.length (gridCols grid),
          cellAt grid rc = some 'G' ∧ gpos = ((rc.1 : Int), (rc.2 : Int)) := by
        rcases hpg gpos rfl with h1 | h1
        · simp at h1
        · exact h1
      have hSfacts := marker_bounds_pass hmS hcS (by decide)
        (⟨grid, grid.length, gridCols grid, spos, gpos⟩ : Maze) rfl rfl rfl
      have hGfacts := marker_bounds_pass hmG hcG (by decide)
        (⟨grid, grid.length, gridCols grid, spos, gpos⟩ : Maze) rfl rfl rfl
      refine ⟨rfl, ⟨rfl, rfl, ?_, ?_, ?_, ?_, ?_⟩⟩
      · intro r row hrow
        by_contra hlt
        push_neg at hlt
        have hr : r < grid.length := by
          rcases List.get?_eq_some.mp hrow with ⟨hh, _⟩
          exact hh
        have hmem : ((r, row.length) : Nat × Nat) ∈ allIdx grid.length (gridCols grid) :=
          mem_allIdx.mpr ⟨hr, hlt⟩
        have : cellAt grid (r, row.length) = none := by
          rw [cellAt, hrow]
          simp [List.get?_eq_none.mpr (le_refl row.length)]
        exact hnotbad ⟨(r, row.length), hmem, this⟩
      · rw [hpeS]; exact hSfacts.1
      · rw [hpeG]; exact hGfacts.1
      · rw [hpeS]; exact hSfacts.2
      · rw [hpeG]; exact hGfacts.2

/-! ## Concrete example mazes used by witnesses and counterexamples -/

def gridRow : List (List Char) := [['S', '.', 'G']]

def mazeRow : Maze := ⟨gridRow, 1, 3, (0, 0), (0, 2)⟩

def gridSharp : List (List Char) := [['S', '#', 'G']]

def mazeSharp : Maze := ⟨gridSharp, 1, 3, (0, 0), (0, 2)⟩

def gridRag : List (List Char) := [['S', 'G'], ['.', '.', '#']]

def mazeRag : Maze := ⟨gridRag, 2, 2, (0, 0), (0, 1)⟩

def gridTwoS : List (List Char) := [['S'], ['S'], ['G']]

def mazeTwoS : Maze := ⟨gridTwoS, 3, 1, (1, 0), (2, 0)⟩

/-! ## Claim C2: which grids make construction fail -/

/-- C2, counterexample: the claim says construction fails when the number of
start markers is not exactly 1; but the code accepts a grid with two `'S'`
cells (and one `'G'`), keeping the last `'S'` found as the start. -/
theorem maze_construction_cex : mkMaze gridTwoS = .ok mazeTwoS := by rfl

/-- C2, amended: `Maze.__init__` fails with an `IndexError` exactly when some
scanned position `(r, c)` with `r < len(grid)`, `c < len(grid[0])` is out of
range of its row (a later row shorter than the first), and with the
`ValueError` exactly when the scan completes and found no `'S'` or no `'G'`;
marker counts are not checked (the last marker of each kind wins), rows of
unequal length are accepted when every later row is at least as long as the
first.  In particular: the empty grid and a grid with no `'G'` fail with the
`ValueError`, the grid `["###", "##"]` fails with an `IndexError` (not the
`ValueError`), a grid with two `'S'` cells and one `'G'` is accepted, and a
ragged grid whose second row is longer is accepted. -/
theorem maze_construction_amended :
    (∀ grid : List (List Char), mkMaze grid = .error .indexError ↔ ScanBad grid) ∧
    (∀ grid : List (List Char), mkMaze grid = .error .valueError ↔
      ¬ ScanBad grid ∧ (¬ HasMark grid 'S' ∨ ¬ HasMark grid 'G')) ∧
    mkMaze ([] : List (List Char)) = .error .valueError ∧
    mkMaze [['S', '.']] = .error .valueError ∧
    mkMaze [['#', '#', '#'], ['#', '#']] = .error .indexError ∧
    mkMaze gridTwoS = .ok mazeTwoS ∧
    mkMaze gridRag = .ok mazeRag := by
  refine ⟨mkMaze_indexError_iff, mkMaze_valueError_iff, by rfl, by rfl, by rfl, by rfl, by rfl⟩

/-! ## Claim C3: termination behavior of `reconstruct_path` -/

theorem reconLoop_cyc : ∀ (fuel : Nat) (acc : List (Option Cell)),
    reconLoop [(((0 : Int), (0 : Int)), some ((0 : Int), (0 : Int)))]
      (some ((1 : Int), (1 : Int))) fuel (some ((0 : Int), (0 : Int))) acc = .fuelOut
  | 0, _ => rfl
  | fuel + 1, acc => by
    have hstep : reconLoop [(((0 : Int), (0 : Int)), some ((0 : Int), (0 : Int)))]
        (some ((1 : Int), (1 : Int))) (fuel + 1) (some ((0 : Int), (0 : Int))) acc =
        reconLoop [(((0 : Int), (0 : Int)), some ((0 : Int), (0 : Int)))]
          (some ((1 : Int), (1 : Int))) fuel (some ((0 : Int), (0 : Int)))
          (acc ++ [some ((0 : Int), (0 : Int))]) := rfl
    rw [hstep]
    exact reconLoop_cyc fuel _

/-- C3, counterexample: the claim says the backward walk fails with an
internal-consistency error within `rows × cols` steps on a malformed
predecessor map; but the code has no such bound: on the cyclic map
`{(0,0) ↦ (0,0)}` with goal `(0,0)` and start `(1,1)` the loop never
terminates (it exhausts any amount of fuel). -/
theorem reconstruct_path_cycle_cex :
    reconDiverges [(((0 : Int), (0 : Int)), some ((0 : Int), (0 : Int)))] (1, 1) (0, 0) := by
  unfold reconDiverges
  intro fuel
  rw [reconstruct_path, if_neg (by decide)]
  exact reconLoop_cyc fuel _

/-- C3, amended: `reconstruct_path` returns the absence marker whenever the
goal is not a key of the predecessor map (for any fuel); it terminates with a
`KeyError` when the backward walk meets a missing key, and terminates with a
path when the walk reaches the start; but there is no `rows × cols` defensive
bound, and on a map whose predecessor chain from the goal is cyclic the
backward walk never terminates. -/
theorem reconstruct_path_amended :
    (∀ (cf : List (Cell × Option Cell)) (s g : Cell) (fuel : Nat),
      List.lookup g cf = none → reconstruct_path cf s g fuel = .absent) ∧
    reconDiverges [(((0 : Int), (0 : Int)), some ((0 : Int), (0 : Int)))] (1, 1) (0, 0) ∧
    reconstruct_path [(((0 : Int), (0 : Int)), some ((1 : Int), (0 : Int)))] (9, 9) (0, 0) 5 =
      .keyError ∧
    reconstruct_path [(((1 : Int), (1 : Int)), some ((0 : Int), (0 : Int))),
      (((0 : Int), (0 : Int)), none)] (0, 0) (1, 1) 4 =
      .found [some ((0 : Int), (0 : Int)), some ((1 : Int), (1 : Int))] := by
  refine ⟨?_, ?_, by rfl, by rfl⟩
  · intro cf s g fuel h
    rw [reconstruct_path, if_pos h]
  · unfold reconDiverges
    intro fuel
    rw [reconstruct_path, if_neg (by decide)]
    exact reconLoop_cyc fuel _

/-- C3 witness: the amended theorem applied at a concrete map without the
goal key. -/
theorem reconstruct_path_amended_witness :
    reconstruct_path [] (0, 0) (1, 1) 3 = .absent :=
  reconstruct_path_amended.1 [] (0, 0) (1, 1) 3 (by rfl)

/-! ## Claim C7: the neighbor enumeration -/

/-- C7: for every constructed maze and in-bounds cell, `neighbors` yields
exactly the in-bounds passable cells one unit away, in the fixed order up,
down, left, right (it coincides with the sequence described by the spec);
being a pure function of the immutable maze, re-querying it yields the same
sequence. -/
theorem neighbors_spec_correct (grid : List (List Char)) (m : Maze)
    (h : mkMaze grid = .ok m) (pos : Cell) (hpos : m.in_bounds pos = true) :
    m.neighbors pos = neighborsSpec m pos ∧
    (∀ np : Cell, np ∈ m.neighbors pos ↔
      (UnitMove pos np ∧ m.in_bounds np = true ∧ m.passable np = some true)) :=
  ⟨neighbors_eq_spec m pos, fun _ => mem_neighbors⟩

/-- C7 witness: the theorem applied to the maze `["S.G"]` at cell `(0, 1)`. -/
theorem neighbors_spec_correct_witness :
    mazeRow.neighbors (0, 1) = neighborsSpec mazeRow (0, 1) ∧
    (∀ np : Cell, np ∈ mazeRow.neighbors (0, 1) ↔
      (UnitMove (0, 1) np ∧ mazeRow.in_bounds np = true ∧
        mazeRow.passable np = some true)) :=
  neighbors_spec_correct gridRow mazeRow (by rfl) (0, 1) (by rfl)

/-! ## Claim C10: `passable` without its in-bounds precondition -/

/-- C10, counterexample: the claim says any cell with column ≥ `cols` makes
`passable` raise an `IndexError`; but a constructible ragged maze whose
second row is longer than the first answers normally at `(1, 2)` (and at
`(1, -1)` it wraps modulo that row's own length 3, giving the `'#'` at
`(1, 2)` — not the passability of `(1, -1 mod cols) = (1, 1)`, which is
`'.'`). -/
theorem passable_wrap_cex :
    mkMaze gridRag = .ok mazeRag ∧
    mazeRag.passable (1, 2) = some false ∧
    mazeRag.passable (1, -1) = some false ∧
    mazeRag.passable (1, 1) = some true := by
  refine ⟨by rfl, by rfl, by rfl, by rfl⟩

/-- C10, amended: on a rectangular constructed maze (every row of length
`cols`), `passable` does not check its in-bounds precondition: for any row
index in `[-rows, rows)` and column index in `[-cols, cols)` it answers with
the passability of the wrapped cell `(row mod rows, col mod cols)` instead of
failing, while a row index ≥ `rows`, or a column index ≥ `cols` with a valid
row index, makes the underlying access raise an `IndexError`.  (On a ragged
maze accepted by the constructor the column wrap is modulo the accessed row's
own length, and an over-long column index can answer normally, as the
counterexample shows.) -/
theorem passable_wrap_amended (grid : List (List Char)) (m : Maze)
    (h : mkMaze grid = .ok m) (hrect : ∀ row ∈ m.grid, row.length = m.cols) :
    (∀ r c : Int, -(m.rows : Int) ≤ r → r < (m.rows : Int) → -(m.cols : Int) ≤ c →
      c < (m.cols : Int) →
      m.passable (r, c) = m.passable (r % (m.rows : Int), c % (m.cols : Int))) ∧
    (∀ r c : Int, (m.rows : Int) ≤ r → m.passable (r, c) = none) ∧
    (∀ r c : Int, -(m.rows : Int) ≤ r → r < (m.rows : Int) → (m.cols : Int) ≤ c →
      m.passable (r, c) = none) := by
  obtain ⟨hgrid, wf⟩ := mkMaze_wf h
  have hlen : m.grid.length = m.rows := wf.rows_def.symm
  refine ⟨?_, ?_, ?_⟩
  · intro r c hr1 hr2 hc1 hc2
    have hrpos : 0 < (m.rows : Int) := by omega
    have hcpos : 0 < (m.cols : Int) := by omega
    have e1 : pyGet m.grid r = m.grid.get? (r % (m.grid.length : Int)).toNat :=
      pyGet_wrap (by omega) (by omega)
    have hmod1 : 0 ≤ r % (m.rows : Int) := Int.emod_nonneg r (by omega)
    have hmod2 : r % (m.rows : Int) < (m.rows : Int) :=
      Int.emod_lt_of_pos r hrpos
    have e2 : pyGet m.grid (r % (m.rows : Int)) =
        m.grid.get? (r % (m.rows : Int)).toNat :=
      pyGet_of_nonneg hmod1 (by omega)
    have hsame : (r % (m.grid.length : Int)).toNat = (r % (m.rows : Int)).toNat := by
      rw [show (m.grid.length : Int) = (m.rows : Int) by omega]
    rw [Maze.passable, Maze.passable]
    rw [e1, e2, hsame]
    cases hq : m.grid.get? (r % (m.rows : Int)).toNat with
    | none => simp
    | some row =>
      have hrowmem : row ∈ m.grid := List.get?_mem hq
      have hrl : row.length = m.cols := hrect row hrowmem
      have i1 : pyGet row c = row.get? (c % (row.length : Int)).toNat :=
        pyGet_wrap (by omega) (by omega)
      have hcm1 : 0 ≤ c % (m.cols : Int) := Int.emod_nonneg c (by omega)
      have hcm2 : c % (m.cols : Int) < (m.cols : Int) := Int.emod_lt_of_pos c hcpos
      have i2 : pyGet row (c % (m.cols : Int)) = row.get? (c % (m.cols : Int)).toNat :=
        pyGet_of_nonneg hcm1 (by omega)
      have hcsame : (c % (row.length : Int)).toNat = (c % (m.cols : Int)).toNat := by
        rw [show (row.length : Int) = (m.cols : Int) by omega]
      simp only [Option.some_bind]
      rw [i1, i2, hcsame]
  · intro r c hge
    have : pyGet m.grid r = none := pyGet_none_of_big (Or.inl (by omega))
    rw [Maze.passable]
    rw [this]
    rfl
  · intro r c hr1 hr2 hge
    have hrpos : 0 < (m.rows : Int) := by omega
    have e1 : pyGet m.grid r = m.grid.get? (r % (m.grid.length : Int)).toNat :=
      pyGet_wrap (by omega) (by omega)
    have hidx : (r % (m.grid.length : Int)).toNat < m.grid.length := by
      have h1 : 0 ≤ r % (m.grid.length : Int) := Int.emod_nonneg r (by omega)
      have h2 : r % (m.grid.length : Int) < (m.grid.length : Int) :=
        Int.emod_lt_of_pos r (by omega)
      omega
    obtain ⟨row, hq⟩ : ∃ row, m.grid.get? (r % (m.grid.length : Int)).toNat = some row := by
      cases hq : m.grid.get? (r % (m.grid.length : Int)).toNat with
      | none =>
        rw [List.get?_eq_none] at hq
        omega
      | some row => exact ⟨row, rfl⟩
    have hrowmem : row ∈ m.grid := List.get?_mem hq
    have hrl : row.length = m.cols := hrect row hrowmem
    have hinner : pyGet row c = none := pyGet_none_of_big (Or.inl (by omega))
    rw [Maze.passable]
    rw [e1, hq]
    simp only [Option.some_bind]
    rw [hinner]
    rfl

/-- C10 witness: the amended theorem applied to the rectangular maze
`["S.G"]`. -/
theorem passable_wrap_amended_witness :
    (∀ r c : Int, -(mazeRow.rows : Int) ≤ r → r < (mazeRow.rows : Int) →
      -(mazeRow.cols : Int) ≤ c → c < (mazeRow.cols : Int) →
      mazeRow.passable (r, c) =
        mazeRow.passable (r % (mazeRow.rows : Int), c % (mazeRow.cols : Int))) ∧
    (∀ r c : Int, (mazeRow.rows : Int) ≤ r → mazeRow.passable (r, c) = none) ∧
    (∀ r c : Int, -(mazeRow.rows : Int) ≤ r → r < (mazeRow.rows : Int) →
      (mazeRow.cols : Int) ≤ c → mazeRow.passable (r, c) = none) :=
  passable_wrap_amended gridRow mazeRow (by rfl) (by decide)

/-! ## The search engine (`bfs` and `dfs` in the source)

Both operations share one loop skeleton and differ only in the frontier
discipline: `bfs` uses a FIFO deque (`popleft` from the front, `append` at
the back), `dfs` a LIFO stack (`append` and `pop` at the same end).  The
embedding keeps the frontier as a list popped at the head; the FIFO
discipline pushes at the tail and the LIFO discipline pushes at the head (a
Python stack's top is its last element, here the list head).  The `while`
loop is fuel-indexed, `none` standing for fuel exhaustion; `searchFuel` is
proved sufficient below, so on every constructed maze the embedded search
returns `some`, exactly as the always-terminating Python loop. -/

structure SState where
  frontier : List Cell
  visited : Finset Cell
  came_from : List (Cell × Option Cell)
  explored : List Cell
deriving DecidableEq

/-- The `for nb in maze.neighbors(cur)` body shared by `bfs` and `dfs`:
an unvisited neighbor is marked visited, pushed on the frontier, and its
predecessor is recorded (`came_from[nb] = cur`; the association list is
extended at the front, and `nb` is never already a key). -/
def expand (m : Maze) (lifo : Bool) (cur : Cell) (st : SState) : SState :=
  (m.neighbors cur).foldl
    (fun st nb =>
      if nb ∈ st.visited then st
      else
        { st with
          visited := insert nb st.visited
          frontier := if lifo then nb :: st.frontier else st.frontier ++ [nb]
          came_from := (nb, some cur) :: st.came_from })
    st

/-- Popping `cur` off the frontier and appending it to the exploration
trace (`explored_order.append(cur)` happens right after the pop). -/
def popUpd (st : SState) (cur : Cell) (rest : List Cell) : SState :=
  { st with frontier := rest, explored := st.explored ++ [cur] }

/-- The shared `while frontier:` loop: pop, record, `break` when the popped
cell is the goal, otherwise expand it. -/
def searchLoop (m : Maze) (lifo : Bool) : Nat → SState → Option SState
  | 0, _ => none
  | fuel + 1, st =>
    match st.frontier with
    | [] => some st
    | cur :: rest =>
      if cur = m.goal then some (popUpd st cur rest)
      else searchLoop m lifo fuel (expand m lifo cur (popUpd st cur rest))

/-- `frontier = deque([start]) / stack = [start]; visited = {start};
came_from = {start: None}; explored_order = []`. -/
def initState (m : Maze) : SState :=
  ⟨[m.start], {m.start}, [(m.start, none)], []⟩

/-- Fuel that is proved sufficient for the loop to run to completion. -/
def searchFuel (m : Maze) : Nat := m.rows * m.cols + 1

def bfsRun (m : Maze) : Option SState :=
  searchLoop m false (searchFuel m) (initState m)

def dfsRun (m : Maze) : Option SState :=
  searchLoop m true (searchFuel m) (initState m)

/-- Fuel for the `reconstruct_path` call a search makes; proved below to
cover the predecessor chain of any map a search produces. -/
def reconFuelOf (cf : List (Cell × Option Cell)) : Nat := cf.length + 2

/-- `bfs` from the source (the animation hook is elided: it does not touch
the algorithm state): `return reconstruct_path(came_from, start, goal),
explored_order`. -/
def bfs (m : Maze) : Option (ReconResult × List Cell) :=
  (bfsRun m).map fun st =>
    (reconstruct_path st.came_from m.start m.goal (reconFuelOf st.came_from), st.explored)

/-- `dfs` from the source, identical to `bfs` except for the stack
discipline. -/
def dfs (m : Maze) : Option (ReconResult × List Cell) :=
  (dfsRun m).map fun st =>
    (reconstruct_path st.came_from m.start m.goal (reconFuelOf st.came_from), st.explored)

/-! ## Reachability in the 4-connected passable-cell graph -/

/-- `reachN m n a b`: there is a walk of at most `n` neighbor steps from `a`
to `b`. -/
def reachN (m : Maze) : Nat → Cell → Cell → Prop
  | 0, a, b => b = a
  | n + 1, a, b => b = a ∨ ∃ c ∈ m.neighbors a, reachN m n c b

instance reachNDec (m : Maze) : ∀ (n : Nat) (a b : Cell), Decidable (reachN m n a b)
  | 0, a, b => inferInstanceAs (Decidable (b = a))
  | n + 1, a, b =>
    haveI : DecidablePred fun c => reachN m n c b := fun c => reachNDec m n c b
    inferInstanceAs (Decidable (b = a ∨ ∃ c ∈ m.neighbors a, reachN m n c b))

/-- `b` is reachable from `a` along passable in-bounds cells. -/
def reach (m : Maze) (a b : Cell) : Prop := ∃ n, reachN m n a b

/-- `b` is at graph distance exactly `d` from the start. -/
def hasDist (m : Maze) (b : Cell) (d : Nat) : Prop :=
  reachN m d m.start b ∧ ∀ k, reachN m k m.start b → d ≤ k

/-- A non-empty sequence of cells in which each cell is a maze neighbor of
the one before it. -/
def IsWalk (m : Maze) (l : List Cell) : Prop :=
  l ≠ [] ∧ l.Chain' fun a b => b ∈ m.neighbors a

/-- The predecessor chain recorded in a `came_from` map: `CfChain cf s c p`
says `p` walks the map's links from `s` (the one key mapped to `none`)
forward to `c`. -/
inductive CfChain (cf : List (Cell × Option Cell)) (s : Cell) : Cell → List Cell → Prop where
  | base : (s, none) ∈ cf → CfChain cf s s [s]
  | step {u c : Cell} {p : List Cell} : CfChain cf s u p → (c, some u) ∈ cf → c ≠ s →
      CfChain cf s c (p ++ [c])

/-- The in-bounds cells, as a finite set of size `rows × cols`. -/
def allCells (m : Maze) : Finset Cell :=
  (Finset.range m.rows ×ˢ Finset.range m.cols).image fun p => ((p.1 : Int), (p.2 : Int))

theorem mem_allCells {m : Maze} {c : Cell} :
    c ∈ allCells m ↔ m.in_bounds c = true := by
  cases c with
  | mk a b =>
    simp only [allCells, Finset.mem_image, Finset.mem_product, Finset.mem_range,
      Maze.in_bounds, decide_eq_true_eq, Prod.exists, Prod.mk.injEq]
    constructor
    · rintro ⟨r, q, ⟨h1, h2⟩, rfl, rfl⟩
      refine ⟨by positivity, by exact_mod_cast h1, by positivity, by exact_mod_cast h2⟩
    · rintro ⟨h1, h2, h3, h4⟩
      exact ⟨a.toNat, b.toNat, ⟨by omega, by omega⟩, by omega, by omega⟩

theorem card_allCells (m : Maze) : (allCells m).card = m.rows * m.cols := by
  rw [allCells, Finset.card_image_of_injective _ (by
    rintro ⟨a, b⟩ ⟨c, d⟩ h
    simp only [Prod.mk.injEq] at h ⊢
    omega)]
  rw [Finset.card_product, Finset.card_range, Finset.card_range]

/-! ## Reachability lemmas -/

theorem reachN_refl (m : Maze) (a : Cell) : ∀ n, reachN m n a a
  | 0 => rfl
  | n + 1 => Or.inl rfl

theorem reachN_mono {m : Maze} : ∀ {n k : Nat} {a b : Cell},
    reachN m n a b → n ≤ k → reachN m k a b := by
  intro n
  induction n with
  | zero =>
    intro k a b h _
    rw [reachN] at h
    subst h
    exact reachN_refl m _ k
  | succ n ih =>
    intro k a b h hle
    obtain ⟨k', rfl⟩ : ∃ k', k = k' + 1 := ⟨k - 1, by omega⟩
    rcases h with rfl | ⟨c, hc, hr⟩
    · exact reachN_refl m b (k' + 1)
    · exact Or.inr ⟨c, hc, ih hr (by omega)⟩

theorem reachN_head_step {m : Maze} {n : Nat} {a b c : Cell}
    (hc : c ∈ m.neighbors a) (h : reachN m n c b) : reachN m (n + 1) a b :=
  Or.inr ⟨c, hc, h⟩

theorem reachN_step_last {m : Maze} : ∀ {n : Nat} {a b c : Cell},
    reachN m n a b → c ∈ m.neighbors b → reachN m (n + 1) a c := by
  intro n
  induction n with
  | zero =>
    intro a b c h hc
    rw [reachN] at h
    subst h
    exact Or.inr ⟨c, hc, rfl⟩
  | succ n ih =>
    intro a b c h hc
    rcases h with rfl | ⟨d, hd, hr⟩
    · exact Or.inr ⟨c, hc, reachN_refl m c (n + 1)⟩
    · exact Or.inr ⟨d, hd, ih hr hc⟩

theorem reachN_snoc {m : Maze} : ∀ {n : Nat} {a b : Cell},
    reachN m (n + 1) a b → b = a ∨ ∃ c, reachN m n a c ∧ b ∈ m.neighbors c := by
  intro n
  induction n with
  | zero =>
    intro a b h
    rcases h with rfl | ⟨c, hc, hr⟩
    · exact Or.inl rfl
    · rw [reachN] at hr
      subst hr
      exact Or.inr ⟨a, rfl, hc⟩
  | succ n ih =>
    intro a b h
    rcases h with rfl | ⟨c, hc, hr⟩
    · exact Or.inl rfl
    · rcases ih hr with rfl | ⟨e, he, hb⟩
      · exact Or.inr ⟨a, reachN_refl m a (n + 1), hc⟩
      · exact Or.inr ⟨e, reachN_head_step hc he, hb⟩

theorem reach_step {m : Maze} {a b c : Cell} (h : reach m a b)
    (hc : c ∈ m.neighbors b) : reach m a c := by
  obtain ⟨n, hn⟩ := h
  exact ⟨n + 1, reachN_step_last hn hc⟩

theorem reach_refl (m : Maze) (a : Cell) : reach m a a := ⟨0, rfl⟩

/-- Every reachable cell has a well-defined distance. -/
theorem reach_hasDist {m : Maze} {b : Cell} (h : reach m m.start b) :
    ∃ d, hasDist m b d := by
  obtain ⟨n, hn⟩ := h
  have hex : ∃ k, reachN m k m.start b := ⟨n, hn⟩
  refine ⟨Nat.find hex, Nat.find_spec hex, ?_⟩
  intro k hk
  exact Nat.find_min' hex hk

theorem hasDist_unique {m : Maze} {b : Cell} {d d' : Nat}
    (h : hasDist m b d) (h' : hasDist m b d') : d = d' :=
  le_antisymm (h.2 d' h'.1) (h'.2 d h.1)

/-- A cell at distance `k + 1` has a neighbor-predecessor at distance `k`. -/
theorem hasDist_pred {m : Maze} {w : Cell} {k : Nat} (h : hasDist m w (k + 1)) :
    ∃ u, hasDist m u k ∧ w ∈ m.neighbors u := by
  rcases reachN_snoc h.1 with rfl | ⟨c, hc, hw⟩
  · have := h.2 0 rfl
    omega
  · have hcle : ∃ j, reachN m j m.start c := ⟨k, hc⟩
    obtain ⟨j, hj⟩ := reach_hasDist ⟨k, hc⟩
    have hjk : j ≤ k := hj.2 k hc
    have : k + 1 ≤ j + 1 := h.2 (j + 1) (reachN_step_last hj.1 hw)
    have hjeq : j = k := by omega
    subst hjeq
    exact ⟨c, hj, hw⟩

/-- A distance-`d` cell is not a neighbor-successor of anything closer than
`d - 1`, and every neighbor of a distance-`k` cell has distance at most
`k + 1`. -/
theorem hasDist_succ_le {m : Maze} {u w : Cell} {k d : Nat} (hu : hasDist m u k)
    (hw : hasDist m w d) (hnb : w ∈ m.neighbors u) : d ≤ k + 1 :=
  hw.2 (k + 1) (reachN_step_last hu.1 hnb)

/-! ## Walks -/

theorem isWalk_reachN {m : Maze} : ∀ {l : List Cell} {a b : Cell},
    IsWalk m l → l.head? = some a → l.getLast? = some b →
    reachN m (l.length - 1) a b := by
  intro l
  induction l with
  | nil => intro a b h _ _; exact absurd rfl h.1
  | cons x xs ih =>
    intro a b h hhead hlast
    simp only [List.head?_cons, Option.some.injEq] at hhead
    subst hhead
    cases hxs : xs with
    | nil =>
      subst hxs
      simp at hlast
      subst hlast
      exact rfl
    | cons y ys =>
      subst hxs
      have hch := h.2
      rw [List.chain'_cons] at hch
      have hwalk : IsWalk m (y :: ys) := ⟨by simp, hch.2⟩
      have hlast' : (y :: ys).getLast? = some b := by
        rw [← hlast]
        exact List.getLast?_cons_cons.symm
      have := ih hwalk rfl hlast'
      simp only [List.length_cons] at this ⊢
      have hstep : reachN m ((y :: ys).length - 1 + 1) x b :=
        reachN_head_step hch.1 this
      simp only [List.length_cons] at hstep
      have heq : ys.length + 1 + 1 - 1 = ys.length + 1 - 1 + 1 := by omega
      rw [heq]
      exact hstep

theorem isWalk_snoc {m : Maze} {l : List Cell} {u c : Cell} (h : IsWalk m l)
    (hlast : l.getLast? = some u) (hc : c ∈ m.neighbors u) :
    IsWalk m (l ++ [c]) ∧ (l ++ [c]).getLast? = some c ∧
      (l ++ [c]).head? = l.head? := by
  refine ⟨⟨by simp, ?_⟩, by simp, ?_⟩
  · rw [List.chain'_append]
    refine ⟨h.2, List.chain'_singleton c, ?_⟩
    intro x hx y hy
    rw [hlast] at hx
    simp only [Option.mem_def, Option.some.injEq] at hx
    simp only [List.head?_cons, Option.mem_def, Option.some.injEq] at hy
    subst hx
    subst hy
    exact hc
  · cases l with
    | nil => exact absurd rfl h.1
    | cons z zs => simp

/-! ## The expansion step in closed form -/

/-- The neighbors that are not yet visited, in enumeration order. -/
def freshOf (vis : Finset Cell) (l : List Cell) : List Cell :=
  l.filter fun c => decide (c ∉ vis)

theorem mem_freshOf {vis : Finset Cell} {l : List Cell} {c : Cell} :
    c ∈ freshOf vis l ↔ c ∈ l ∧ c ∉ vis := by
  simp [freshOf]

theorem freshOf_nodup {vis : Finset Cell} {l : List Cell} (h : l.Nodup) :
    (freshOf vis l).Nodup := h.filter _

theorem expand_eq (m : Maze) (lifo : Bool) (cur : Cell) (st : SState) :
    expand m lifo cur st =
      { frontier :=
          if lifo then (freshOf st.visited (m.neighbors cur)).reverse ++ st.frontier
          else st.frontier ++ freshOf st.visited (m.neighbors cur)
        visited := st.visited ∪ (freshOf st.visited (m.neighbors cur)).toFinset
        came_from := ((freshOf st.visited (m.neighbors cur)).reverse.map
          fun c => (c, some cur)) ++ st.came_from
        explored := st.explored } := by
  have key : ∀ (l : List Cell), l.Nodup → ∀ st : SState,
      l.foldl
        (fun st nb =>
          if nb ∈ st.visited then st
          else
            { st with
              visited := insert nb st.visited
              frontier := if lifo then nb :: st.frontier else st.frontier ++ [nb]
              came_from := (nb, some cur) :: st.came_from })
        st =
      { frontier := if lifo then (freshOf st.visited l).reverse ++ st.frontier
          else st.frontier ++ freshOf st.visited l
        visited := st.visited ∪ (freshOf st.visited l).toFinset
        came_from := ((freshOf st.visited l).reverse.map fun c => (c, some cur)) ++ st.came_from
        explored := st.explored } := by
    intro l
    induction l with
    | nil =>
      intro _ st
      simp [freshOf]
    | cons a l ih =>
      intro hnd st
      rw [List.foldl_cons]
      by_cases ha : a ∈ st.visited
      · rw [if_pos ha]
        rw [ih hnd.of_cons st]
        have hfr : freshOf st.visited (a :: l) = freshOf st.visited l := by
          simp [freshOf, List.filter_cons, ha]
        rw [hfr]
      · rw [if_neg ha]
        rw [ih hnd.of_cons _]
        have hanotl : a ∉ l := (List.nodup_cons.mp hnd).1
        have hfr : freshOf (insert a st.visited) l = freshOf st.visited l := by
          rw [freshOf, freshOf]
          apply List.filter_congr
          intro x hx
          have hxa : x ≠ a := fun hxy => hanotl (hxy ▸ hx)
          apply decide_eq_decide.mpr
          simp [Finset.mem_insert, hxa]
        have hfr2 : freshOf st.visited (a :: l) = a :: freshOf st.visited l := by
          simp [freshOf, List.filter_cons, ha]
        simp only [hfr, hfr2]
        simp only [SState.mk.injEq]
        refine ⟨?_, ?_, ?_, trivial⟩
        · cases lifo
          · simp
          · simp
        · rw [List.toFinset_cons, Finset.insert_union, Finset.union_insert]
        · simp
  rw [expand]
  exact key (m.neighbors cur) (neighbors_nodup m cur) st

/-! ## Termination of the search loop -/

/-- The loop measure: unvisited in-bounds cells plus the frontier length. -/
def meas (m : Maze) (st : SState) : Nat :=
  (allCells m \ st.visited).card + st.frontier.length

theorem meas_expand_lt (m : Maze) (lifo : Bool) (st : SState) (cur : Cell)
    (rest : List Cell) (hfr : st.frontier = cur :: rest) :
    meas m (expand m lifo cur (popUpd st cur rest)) < meas m st := by
  rw [expand_eq]
  have hvis : (popUpd st cur rest).visited = st.visited := rfl
  have hfrt : (popUpd st cur rest).frontier = rest := rfl
  rw [meas, meas]
  simp only [hvis, hfrt]
  have hsub : (freshOf st.visited (m.neighbors cur)).toFinset ⊆
      allCells m \ st.visited := by
    intro x hx
    rw [List.mem_toFinset, mem_freshOf] at hx
    rw [Finset.mem_sdiff]
    exact ⟨mem_allCells.mpr (mem_neighbors.mp hx.1).2.1, hx.2⟩
  have hdiff : allCells m \ (st.visited ∪ (freshOf st.visited (m.neighbors cur)).toFinset)
      = (allCells m \ st.visited) \ (freshOf st.visited (m.neighbors cur)).toFinset := by
    ext x
    simp only [Finset.mem_sdiff, Finset.mem_union]
    tauto
  rw [hdiff, Finset.card_sdiff hsub]
  have hcardle := Finset.card_le_card hsub
  have hlenf : ((freshOf st.visited (m.neighbors cur)).toFinset).card =
      (freshOf st.visited (m.neighbors cur)).length :=
    List.toFinset_card_of_nodup (freshOf_nodup (neighbors_nodup m cur))
  have hfl : (if lifo then (freshOf st.visited (m.neighbors cur)).reverse ++ rest
      else rest ++ freshOf st.visited (m.neighbors cur)).length =
      rest.length + (freshOf st.visited (m.neighbors cur)).length := by
    cases lifo <;> simp <;> omega
  rw [hfl, hfr]
  simp only [List.length_cons]
  omega

/-! ## Chain lemmas -/

theorem CfChain_mono {cf cf' : List (Cell × Option Cell)} {s c : Cell} {p : List Cell}
    (hsub : ∀ e ∈ cf, e ∈ cf') (h : CfChain cf s c p) : CfChain cf' s c p := by
  induction h with
  | base hb => exact CfChain.base (hsub _ hb)
  | step hch hmem hne ih => exact CfChain.step ih (hsub _ hmem) hne

theorem CfChain_ne_nil {cf : List (Cell × Option Cell)} {s c : Cell} {p : List Cell}
    (h : CfChain cf s c p) : p ≠ [] := by
  induction h with
  | base _ => simp
  | step _ _ _ _ => simp

theorem CfChain_last {cf : List (Cell × Option Cell)} {s c : Cell} {p : List Cell}
    (h : CfChain cf s c p) : p.getLast? = some c := by
  induction h with
  | base _ => rfl
  | step _ _ _ _ => simp

theorem CfChain_head {cf : List (Cell × Option Cell)} {s c : Cell} {p : List Cell}
    (h : CfChain cf s c p) : p.head? = some s := by
  induction h with
  | base _ => rfl
  | step hch _ _ ih =>
    have hne := CfChain_ne_nil hch
    obtain ⟨z, zs, rfl⟩ := List.exists_cons_of_ne_nil hne
    simpa using ih

/-! ## The shared loop invariant -/

/-- The state invariant shared by BFS and DFS: the visited set is exactly
trace-plus-frontier, the trace and frontier never repeat a cell, every
visited cell is a reachable, passable, in-bounds cell, every traced cell has
been fully expanded, the goal has not been expanded, and the predecessor map
has exactly the visited cells as keys, maps only the start to `none`, never
records the goal as a parent, always records a parent that was already a
key, and carries a duplicate-free predecessor chain from the start to every
key. -/
structure GInv (m : Maze) (st : SState) : Prop where
  vis_iff : ∀ c, c ∈ st.visited ↔ (c ∈ st.explored ∨ c ∈ st.frontier)
  nodup_ef : (st.explored ++ st.frontier).Nodup
  start_vis : m.start ∈ st.visited
  vis_reach : ∀ c ∈ st.visited, reach m m.start c
  vis_pass : ∀ c ∈ st.visited, m.passable c = some true
  vis_bounds : ∀ c ∈ st.visited, m.in_bounds c = true
  expl_expanded : ∀ c ∈ st.explored, ∀ nb ∈ m.neighbors c, nb ∈ st.visited
  goal_not_expl : m.goal ∉ st.explored
  keys_iff : ∀ c, (∃ v, (c, v) ∈ st.came_from) ↔ c ∈ st.visited
  keys_nodup : (st.came_from.map Prod.fst).Nodup
  start_none : (m.start, none) ∈ st.came_from
  none_start : ∀ c v, (c, v) ∈ st.came_from → v = none → c = m.start
  parent_no_goal : ∀ c u, (c, some u) ∈ st.came_from → u ≠ m.goal
  parent_seen : ∀ l₁ c u l₂, st.came_from = l₁ ++ (c, some u) :: l₂ →
    u ∈ l₂.map Prod.fst
  chains : ∀ c ∈ st.visited, ∃ p, CfChain st.came_from m.start c p ∧ p.Nodup ∧
    IsWalk m p ∧ p.head? = some m.start ∧ p.getLast? = some c ∧
    ∀ x ∈ p, x ∈ st.visited

theorem ginv_init {m : Maze} (wf : MazeWF m) : GInv m (initState m) := by
  refine ⟨?_, ?_, ?_, ?_, ?_, ?_, ?_, ?_, ?_, ?_, ?_, ?_, ?_, ?_, ?_⟩
  · intro c
    simp [initState]
  · simp [initState]
  · simp [initState]
  · intro c hc
    simp only [initState, Finset.mem_singleton] at hc
    subst hc
    exact reach_refl m m.start
  · intro c hc
    simp only [initState, Finset.mem_singleton] at hc
    subst hc
    exact wf.start_pass
  · intro c hc
    simp only [initState, Finset.mem_singleton] at hc
    subst hc
    exact wf.start_bounds
  · intro c hc
    simp [initState] at hc
  · simp [initState]
  · intro c
    simp [initState]
  · simp [initState]
  · simp [initState]
  · intro c v hmem _
    simp only [initState, List.mem_singleton, Prod.mk.injEq] at hmem
    exact hmem.1
  · intro c u hmem
    simp only [initState, List.mem_singleton, Prod.mk.injEq] at hmem
    exact absurd hmem.2 (by simp)
  · intro l₁ c u l₂ hsplit
    simp only [initState] at hsplit
    cases l₁ with
    | nil =>
      simp only [List.nil_append, List.cons.injEq, Prod.mk.injEq] at hsplit
      exact absurd hsplit.1.2 (by simp)
    | cons e l₁' =>
      simp only [List.cons_append, List.cons.injEq] at hsplit
      exact absurd hsplit.2 (by simp)
  · intro c hc
    simp only [initState, Finset.mem_singleton] at hc
    subst hc
    refine ⟨[m.start], CfChain.base (by simp [initState]), by simp, ⟨by simp, by simp⟩,
      rfl, rfl, ?_⟩
    intro x hx
    simp only [List.mem_singleton] at hx
    subst hx
    simp [initState]

theorem ginv_mk (m : Maze) (fr : List Cell) (vis : Finset Cell)
    (cf : List (Cell × Option Cell)) (ex : List Cell)
    (h1 : ∀ c, c ∈ vis ↔ (c ∈ ex ∨ c ∈ fr))
    (h2 : (ex ++ fr).Nodup)
    (h3 : m.start ∈ vis)
    (h4 : ∀ c ∈ vis, reach m m.start c)
    (h5 : ∀ c ∈ vis, m.passable c = some true)
    (h6 : ∀ c ∈ vis, m.in_bounds c = true)
    (h7 : ∀ c ∈ ex, ∀ nb ∈ m.neighbors c, nb ∈ vis)
    (h8 : m.goal ∉ ex)
    (h9 : ∀ c, (∃ v, (c, v) ∈ cf) ↔ c ∈ vis)
    (h10 : (cf.map Prod.fst).Nodup)
    (h11 : (m.start, none) ∈ cf)
    (h12 : ∀ c v, (c, v) ∈ cf → v = none → c = m.start)
    (h13 : ∀ c u, (c, some u) ∈ cf → u ≠ m.goal)
    (h14 : ∀ l₁ c u l₂, cf = l₁ ++ (c, some u) :: l₂ → u ∈ l₂.map Prod.fst)
    (h15 : ∀ c ∈ vis, ∃ p, CfChain cf m.start c p ∧ p.Nodup ∧ IsWalk m p ∧
      p.head? = some m.start ∧ p.getLast? = some c ∧ ∀ x ∈ p, x ∈ vis) :
    GInv m ⟨fr, vis, cf, ex⟩ :=
  ⟨h1, h2, h3, h4, h5, h6, h7, h8, h9, h10, h11, h12, h13, h14, h15⟩

theorem ginv_step (m : Maze) (lifo : Bool) {st : SState} {cur : Cell} {rest : List Cell}
    (hInv : GInv m st) (hfr : st.frontier = cur :: rest) (hg : cur ≠ m.goal) :
    GInv m (expand m lifo cur (popUpd st cur rest)) := by
  set F := freshOf st.visited (m.neighbors cur) with hFdef
  set cfN := (F.reverse.map fun c => (c, some cur)) ++ st.came_from with hcfN
  have hcurfr : cur ∈ st.frontier := by rw [hfr]; simp
  have hcurvis : cur ∈ st.visited := (hInv.vis_iff cur).mpr (Or.inr hcurfr)
  have hrestvis : ∀ x ∈ rest, x ∈ st.visited := by
    intro x hx
    exact (hInv.vis_iff x).mpr (Or.inr (by rw [hfr]; simp [hx]))
  have hexvis : ∀ x ∈ st.explored, x ∈ st.visited := fun x hx =>
    (hInv.vis_iff x).mpr (Or.inl hx)
  have hkeysvis : ∀ x ∈ st.came_from.map Prod.fst, x ∈ st.visited := by
    intro x hx
    obtain ⟨⟨a, v⟩, hmem, rfl⟩ := List.mem_map.mp hx
    exact (hInv.keys_iff _).mp ⟨v, hmem⟩
  have hFnb : ∀ x ∈ F, x ∈ m.neighbors cur := fun x hx => (mem_freshOf.mp hx).1
  have hFnv : ∀ x ∈ F, x ∉ st.visited := fun x hx => (mem_freshOf.mp hx).2
  have hFnodup : F.Nodup := freshOf_nodup (neighbors_nodup m cur)
  have hfr2 : ∀ x : Cell, (x ∈ (if lifo then F.reverse ++ rest else rest ++ F)) ↔
      (x ∈ rest ∨ x ∈ F) := by
    intro x
    cases lifo <;> simp <;> tauto
  have hNmem : ∀ (c : Cell) (v : Option Cell),
      ((c, v) ∈ F.reverse.map fun c => (c, some cur)) ↔ (c ∈ F ∧ v = some cur) := by
    intro c v
    rw [List.mem_map]
    constructor
    · rintro ⟨x, hx, hxe⟩
      have h1 : x = c := congrArg Prod.fst hxe
      have h2 : some cur = v := congrArg Prod.snd hxe
      subst h1
      exact ⟨List.mem_reverse.mp hx, h2.symm⟩
    · rintro ⟨hc, rfl⟩
      exact ⟨c, List.mem_reverse.mpr hc, rfl⟩
  have holdnd : (st.explored ++ cur :: rest).Nodup := by
    have h := hInv.nodup_ef
    rwa [hfr] at h
  have hbase : ((st.explored ++ cur :: rest) ++ F).Nodup := by
    rw [List.nodup_append]
    refine ⟨holdnd, hFnodup, ?_⟩
    intro x hx hxF
    apply hFnv x hxF
    rcases List.mem_append.mp hx with h1 | h1
    · exact hexvis x h1
    · rcases List.mem_cons.mp h1 with rfl | h2
      · exact hcurvis
      · exact hrestvis x h2
  have heqarr : (st.explored ++ [cur]) ++ (rest ++ F) = (st.explored ++ cur :: rest) ++ F := by
    simp
  -- the fifteen invariant clauses for the expanded state
  have pf1 : ∀ c : Cell, c ∈ st.visited ∪ F.toFinset ↔
      (c ∈ st.explored ++ [cur] ∨ c ∈ (if lifo then F.reverse ++ rest else rest ++ F)) := by
    intro c
    rw [Finset.mem_union, List.mem_toFinset, hfr2 c, List.mem_append, List.mem_singleton,
      hInv.vis_iff c, hfr, List.mem_cons]
    tauto
  have pf2 : ((st.explored ++ [cur]) ++ (if lifo then F.reverse ++ rest else rest ++ F)).Nodup := by
    cases lifo
    · show ((st.explored ++ [cur]) ++ (rest ++ F)).Nodup
      rw [heqarr]
      exact hbase
    · show ((st.explored ++ [cur]) ++ (F.reverse ++ rest)).Nodup
      have p1 : (F.reverse ++ rest).Perm (F ++ rest) :=
        (List.reverse_perm F).append_right rest
      have p2 : (F ++ rest).Perm (rest ++ F) := List.perm_append_comm
      have p3 : ((st.explored ++ [cur]) ++ (F.reverse ++ rest)).Perm
          ((st.explored ++ [cur]) ++ (rest ++ F)) := (p1.trans p2).append_left _
      rw [p3.nodup_iff, heqarr]
      exact hbase
  have pf3 : m.start ∈ st.visited ∪ F.toFinset := Finset.mem_union.mpr (Or.inl hInv.start_vis)
  have pf4 : ∀ c ∈ st.visited ∪ F.toFinset, reach m m.start c := by
    intro c hc
    rcases Finset.mem_union.mp hc with h1 | h1
    · exact hInv.vis_reach c h1
    · rw [List.mem_toFinset] at h1
      exact reach_step (hInv.vis_reach cur hcurvis) (hFnb c h1)
  have pf5 : ∀ c ∈ st.visited ∪ F.toFinset, m.passable c = some true := by
    intro c hc
    rcases Finset.mem_union.mp hc with h1 | h1
    · exact hInv.vis_pass c h1
    · rw [List.mem_toFinset] at h1
      exact (mem_neighbors.mp (hFnb c h1)).2.2
  have pf6 : ∀ c ∈ st.visited ∪ F.toFinset, m.in_bounds c = true := by
    intro c hc
    rcases Finset.mem_union.mp hc with h1 | h1
    · exact hInv.vis_bounds c h1
    · rw [List.mem_toFinset] at h1
      exact (mem_neighbors.mp (hFnb c h1)).2.1
  have pf7 : ∀ c ∈ st.explored ++ [cur], ∀ nb ∈ m.neighbors c,
      nb ∈ st.visited ∪ F.toFinset := by
    intro c hc nb hnb
    rcases List.mem_append.mp hc with h1 | h1
    · exact Finset.mem_union.mpr (Or.inl (hInv.expl_expanded c h1 nb hnb))
    · rw [List.mem_singleton] at h1
      subst h1
      by_cases hv : nb ∈ st.visited
      · exact Finset.mem_union.mpr (Or.inl hv)
      · exact Finset.mem_union.mpr (Or.inr (List.mem_toFinset.mpr
          (mem_freshOf.mpr ⟨hnb, hv⟩)))
  have pf8 : m.goal ∉ st.explored ++ [cur] := by
    intro h
    rcases List.mem_append.mp h with h1 | h1
    · exact hInv.goal_not_expl h1
    · rw [List.mem_singleton] at h1
      exact hg h1.symm
  have pf9 : ∀ c, (∃ v, (c, v) ∈ cfN) ↔ c ∈ st.visited ∪ F.toFinset := by
    intro c
    constructor
    · rintro ⟨v, hv⟩
      rcases List.mem_append.mp hv with h1 | h1
      · exact Finset.mem_union.mpr (Or.inr (List.mem_toFinset.mpr ((hNmem c v).mp h1).1))
      · exact Finset.mem_union.mpr (Or.inl ((hInv.keys_iff c).mp ⟨v, h1⟩))
    · intro hc
      rcases Finset.mem_union.mp hc with h1 | h1
      · obtain ⟨v, hv⟩ := (hInv.keys_iff c).mpr h1
        exact ⟨v, List.mem_append.mpr (Or.inr hv)⟩
      · rw [List.mem_toFinset] at h1
        exact ⟨some cur, List.mem_append.mpr (Or.inl ((hNmem c (some cur)).mpr ⟨h1, rfl⟩))⟩
  have hmapN : ((F.reverse.map fun c => (c, some cur)).map Prod.fst) = F.reverse := by
    have hid : (Prod.fst ∘ fun c : Cell => (c, some cur)) = id := rfl
    rw [List.map_map, hid, List.map_id]
  have pf10 : (cfN.map Prod.fst).Nodup := by
    rw [hcfN, List.map_append, hmapN, List.nodup_append]
    refine ⟨List.nodup_reverse.mpr hFnodup, hInv.keys_nodup, ?_⟩
    intro x hx hx2
    exact hFnv x (List.mem_reverse.mp hx) (hkeysvis x hx2)
  have pf11 : (m.start, none) ∈ cfN := List.mem_append.mpr (Or.inr hInv.start_none)
  have pf12 : ∀ c v, (c, v) ∈ cfN → v = none → c = m.start := by
    intro c v hv hnone
    rcases List.mem_append.mp hv with h1 | h1
    · have := ((hNmem c v).mp h1).2
      rw [hnone] at this
      exact absurd this (by simp)
    · exact hInv.none_start c v h1 hnone
  have pf13 : ∀ c u, (c, some u) ∈ cfN → u ≠ m.goal := by
    intro c u hv
    rcases List.mem_append.mp hv with h1 | h1
    · have := ((hNmem c (some u)).mp h1).2
      have hu : u = cur := Option.some.inj this
      rw [hu]
      exact hg
    · exact hInv.parent_no_goal c u h1
  have pf14 : ∀ l₁ c u l₂, cfN = l₁ ++ (c, some u) :: l₂ → u ∈ l₂.map Prod.fst := by
    intro l₁ c u l₂ hsplit
    rw [hcfN] at hsplit
    rcases List.append_eq_append_iff.mp hsplit with ⟨a', _, ha2⟩ | ⟨c', hc1, hc2⟩
    · exact hInv.parent_seen a' c u l₂ ha2
    · cases c' with
      | nil =>
        simp only [List.nil_append] at hc2
        exact hInv.parent_seen [] c u l₂ (by simpa using hc2.symm)
      | cons e c'' =>
        simp only [List.cons_append, List.cons.injEq] at hc2
        obtain ⟨he, hl₂⟩ := hc2
        have heN : e ∈ F.reverse.map fun c => (c, some cur) := by
          rw [hc1]
          simp
        rw [← he] at heN
        have hu : u = cur := Option.some.inj ((hNmem c (some u)).mp heN).2
        subst hu
        rw [hl₂, List.map_append]
        apply List.mem_append.mpr
        right
        obtain ⟨v, hv⟩ := (hInv.keys_iff u).mpr hcurvis
        exact List.mem_map.mpr ⟨(u, v), hv, rfl⟩
  have hsubcf : ∀ e ∈ st.came_from, e ∈ cfN := fun e he => List.mem_append.mpr (Or.inr he)
  have pf15 : ∀ c ∈ st.visited ∪ F.toFinset, ∃ p, CfChain cfN m.start c p ∧ p.Nodup ∧
      IsWalk m p ∧ p.head? = some m.start ∧ p.getLast? = some c ∧
      ∀ x ∈ p, x ∈ st.visited ∪ F.toFinset := by
    intro c hc
    rcases Finset.mem_union.mp hc with hcv | hcF
    · obtain ⟨p, hp1, hp2, hp3, hp4, hp5, hp6⟩ := hInv.chains c hcv
      exact ⟨p, CfChain_mono hsubcf hp1, hp2, hp3, hp4, hp5,
        fun x hx => Finset.mem_union.mpr (Or.inl (hp6 x hx))⟩
    · rw [List.mem_toFinset] at hcF
      obtain ⟨p, hp1, hp2, hp3, hp4, hp5, hp6⟩ := hInv.chains cur hcurvis
      have hcnotp : c ∉ p := fun hcp => hFnv c hcF (hp6 c hcp)
      have hcs : c ≠ m.start := fun he => hFnv c hcF (he ▸ hInv.start_vis)
      have hmemN : (c, some cur) ∈ cfN :=
        List.mem_append.mpr (Or.inl ((hNmem c (some cur)).mpr ⟨hcF, rfl⟩))
      have hchain : CfChain cfN m.start c (p ++ [c]) :=
        CfChain.step (CfChain_mono hsubcf hp1) hmemN hcs
      have hnodup2 : (p ++ [c]).Nodup := by
        rw [List.nodup_append]
        refine ⟨hp2, List.nodup_singleton c, ?_⟩
        intro x hx hxc
        rw [List.mem_singleton] at hxc
        subst hxc
        exact hcnotp hx
      obtain ⟨hwalk2, hlast2, hhead2⟩ := isWalk_snoc hp3 hp5 (hFnb c hcF)
      refine ⟨p ++ [c], hchain, hnodup2, hwalk2, by rw [hhead2]; exact hp4, hlast2, ?_⟩
      intro x hx
      rcases List.mem_append.mp hx with h1 | h1
      · exact Finset.mem_union.mpr (Or.inl (hp6 x h1))
      · rw [List.mem_singleton] at h1
        subst h1
        exact Finset.mem_union.mpr (Or.inr (List.mem_toFinset.mpr hcF))
  rw [expand_eq]
  exact ginv_mk m (if lifo then F.reverse ++ rest else rest ++ F)
    (st.visited ∪ F.toFinset) cfN (st.explored ++ [cur])
    pf1 pf2 pf3 pf4 pf5 pf6 pf7 pf8 pf9 pf10 pf11 pf12 pf13 pf14 pf15

/-! ## Running the loop -/

theorem searchLoop_run (m : Maze) (lifo : Bool) (P : SState → Prop)
    (hstep : ∀ st cur rest, P st → st.frontier = cur :: rest → cur ≠ m.goal →
      P (expand m lifo cur (popUpd st cur rest))) :
    ∀ (fuel : Nat) (st : SState), P st → meas m st < fuel →
      ∃ st', searchLoop m lifo fuel st = some st' ∧
        ((st'.frontier = [] ∧ P st') ∨
          ∃ stp rest, P stp ∧ stp.frontier = m.goal :: rest ∧
            st' = popUpd stp m.goal rest) := by
  intro fuel
  induction fuel with
  | zero => intro st _ hm; omega
  | succ fuel ih =>
    intro st hP hm
    rw [searchLoop]
    cases hfr : st.frontier with
    | nil =>
      exact ⟨st, rfl, Or.inl ⟨hfr, hP⟩⟩
    | cons cur rest =>
      by_cases hgoal : cur = m.goal
      · refine ⟨popUpd st cur rest, ?_,
          Or.inr ⟨st, rest, hP, hgoal ▸ hfr, by rw [hgoal]⟩⟩
        show (if cur = m.goal then some (popUpd st cur rest)
          else searchLoop m lifo fuel (expand m lifo cur (popUpd st cur rest))) =
          some (popUpd st cur rest)
        rw [if_pos hgoal]
      · have hP' := hstep st cur rest hP hfr hgoal
        have hm' : meas m (expand m lifo cur (popUpd st cur rest)) < fuel := by
          have := meas_expand_lt m lifo st cur rest hfr
          omega
        obtain ⟨st', hrun, hres⟩ := ih _ hP' hm'
        refine ⟨st', ?_, hres⟩
        show (if cur = m.goal then some (popUpd st cur rest)
          else searchLoop m lifo fuel (expand m lifo cur (popUpd st cur rest))) =
          some st'
        rw [if_neg hgoal]
        exact hrun

theorem meas_init_lt {m : Maze} (wf : MazeWF m) : meas m (initState m) < searchFuel m := by
  have hstart : m.start ∈ allCells m := mem_allCells.mpr wf.start_bounds
  have h1 : (allCells m \ {m.start}).card = (allCells m).card - 1 := by
    rw [Finset.card_sdiff (Finset.singleton_subset_iff.mpr hstart)]
    simp
  have hpos : 0 < (allCells m).card := Finset.card_pos.mpr ⟨m.start, hstart⟩
  show (allCells m \ {m.start}).card + [m.start].length < m.rows * m.cols + 1
  rw [h1, card_allCells]
  rw [card_allCells] at hpos
  simp only [List.length_singleton]
  omega

theorem search_final (m : Maze) (lifo : Bool) (wf : MazeWF m) :
    ∃ st', searchLoop m lifo (searchFuel m) (initState m) = some st' ∧
      ((st'.frontier = [] ∧ GInv m st') ∨
        ∃ stp rest, GInv m stp ∧ stp.frontier = m.goal :: rest ∧
          st' = popUpd stp m.goal rest) :=
  searchLoop_run m lifo (GInv m)
    (fun _ _ _ h1 h2 h3 => ginv_step m lifo h1 h2 h3)
    (searchFuel m) (initState m) (ginv_init wf) (meas_init_lt wf)

/-! ## Analysis of the final state -/

theorem exhaust_visited_iff_reach {m : Maze} {st : SState} (hInv : GInv m st)
    (hfr : st.frontier = []) (c : Cell) : c ∈ st.visited ↔ reach m m.start c := by
  constructor
  · exact hInv.vis_reach c
  · rintro ⟨n, hn⟩
    have key : ∀ (k : Nat) (a b : Cell), a ∈ st.visited → reachN m k a b →
        b ∈ st.visited := by
      intro k
      induction k with
      | zero =>
        intro a b ha h
        rw [reachN] at h
        subst h
        exact ha
      | succ k ih =>
        intro a b ha h
        rcases h with rfl | ⟨d, hd, hr⟩
        · exact ha
        · have haex : a ∈ st.explored := by
            rcases (hInv.vis_iff a).mp ha with h1 | h1
            · exact h1
            · rw [hfr] at h1
              simp at h1
          exact ih d b (hInv.expl_expanded a haex d hd) hr
    exact key n m.start c hInv.start_vis hn

theorem exhaust_explored_iff_visited {m : Maze} {st : SState} (hInv : GInv m st)
    (hfr : st.frontier = []) (c : Cell) : c ∈ st.explored ↔ c ∈ st.visited := by
  rw [hInv.vis_iff c, hfr]
  simp

theorem exhaust_goal_unreachable {m : Maze} {st : SState} (hInv : GInv m st)
    (hfr : st.frontier = []) : ¬ reach m m.start m.goal := by
  intro hr
  have hv : m.goal ∈ st.visited := (exhaust_visited_iff_reach hInv hfr m.goal).mpr hr
  rcases (hInv.vis_iff m.goal).mp hv with h1 | h1
  · exact hInv.goal_not_expl h1
  · rw [hfr] at h1
    simp at h1

/-! ## Reconstruction along a predecessor chain -/

theorem lookup_of_mem_keys_nodup :
    ∀ {cf : List (Cell × Option Cell)}, (cf.map Prod.fst).Nodup →
    ∀ {c : Cell} {v : Option Cell}, (c, v) ∈ cf → List.lookup c cf = some v := by
  intro cf
  induction cf with
  | nil => intro _ c v hmem; simp at hmem
  | cons e cf ih =>
    intro hnd c v hmem
    obtain ⟨e1, e2⟩ := e
    rcases List.mem_cons.mp hmem with heq | hmem'
    · obtain ⟨h1, h2⟩ := Prod.mk.injEq .. ▸ heq
      subst h1
      subst h2
      simp [List.lookup]
    · have hnd' : (cf.map Prod.fst).Nodup := (List.nodup_cons.mp (by simpa using hnd)).2
      have hne : c ≠ e1 := by
        intro he
        subst he
        have hin : c ∈ cf.map Prod.fst := List.mem_map.mpr ⟨(c, v), hmem', rfl⟩
        exact (List.nodup_cons.mp (by simpa using hnd)).1 hin
      have hbeq : (c == e1) = false := by
        rw [beq_eq_false_iff_ne]
        exact hne
      simp [List.lookup, hbeq]
      exact ih hnd' hmem'

theorem CfChain_key {cf : List (Cell × Option Cell)} {s c : Cell} {p : List Cell}
    (h : CfChain cf s c p) : ∃ v, (c, v) ∈ cf := by
  cases h with
  | base hb => exact ⟨none, hb⟩
  | step _ hmem _ => exact ⟨_, hmem⟩

theorem reconLoop_step {cf : List (Cell × Option Cell)} {sv : Option Cell}
    {fuel : Nat} {c : Cell} {acc : List (Option Cell)} {v : Option Cell}
    (hne : ¬ (some c = sv)) (hlook : List.lookup c cf = some v) :
    reconLoop cf sv (fuel + 1) (some c) acc = reconLoop cf sv fuel v (acc ++ [v]) := by
  rw [reconLoop, if_neg hne]
  show (match List.lookup c cf with
    | none => ReconResult.keyError
    | some v => reconLoop cf sv fuel v (acc ++ [v])) =
    reconLoop cf sv fuel v (acc ++ [v])
  rw [hlook]

theorem reconLoop_chain {cf : List (Cell × Option Cell)} {s : Cell}
    (hnd : (cf.map Prod.fst).Nodup) :
    ∀ {c : Cell} {p : List Cell}, CfChain cf s c p →
    ∀ (acc : List (Option Cell)) (fuel : Nat), p.length ≤ fuel →
      reconLoop cf (some s) fuel (some c) acc =
        .found ((acc ++ (p.reverse.drop 1).map some).reverse) := by
  intro c p hchain
  induction hchain with
  | base hb =>
    intro acc fuel hfuel
    obtain ⟨f, rfl⟩ : ∃ f, fuel = f + 1 := ⟨fuel - 1, by simp at hfuel; omega⟩
    rw [reconLoop, if_pos rfl]
    simp
  | step hch hmem hne ih =>
    rename_i u cc pp
    intro acc fuel hfuel
    obtain ⟨f, rfl⟩ : ∃ f, fuel = f + 1 := ⟨fuel - 1, by simp at hfuel; omega⟩
    have hlook : List.lookup cc cf = some (some u) := lookup_of_mem_keys_nodup hnd hmem
    rw [reconLoop_step (by simp [hne]) hlook]
    have hlen : pp.length ≤ f := by
      simp only [List.length_append, List.length_singleton] at hfuel
      omega
    rw [ih (acc ++ [some u]) f hlen]
    have hpp : pp.reverse = u :: pp.reverse.drop 1 := by
      have hlast : pp.getLast? = some u := CfChain_last hch
      have hhead : pp.reverse.head? = some u := by
        rw [List.head?_reverse]
        exact hlast
      cases hrev : pp.reverse with
      | nil => rw [hrev] at hhead; simp at hhead
      | cons z zs =>
        rw [hrev] at hhead
        simp only [List.head?_cons, Option.some.injEq] at hhead
        subst hhead
        simp
    have hdrop : ((pp ++ [cc]).reverse.drop 1) = pp.reverse := by
      rw [List.reverse_append]
      simp
    rw [hdrop]
    have hsplit : pp.reverse.map some = some u :: (pp.reverse.drop 1).map some := by
      rw [hpp]
      simp only [List.map_cons]
      rw [← hpp]
    rw [hsplit]
    simp

theorem reconstruct_of_chain {cf : List (Cell × Option Cell)} {s g : Cell}
    {p : List Cell} (hnd : (cf.map Prod.fst).Nodup) (hchain : CfChain cf s g p)
    {fuel : Nat} (hfuel : p.length ≤ fuel) :
    reconstruct_path cf s g fuel = .found (p.map some) := by
  obtain ⟨v, hv⟩ := CfChain_key hchain
  have hlook : List.lookup g cf = some v := lookup_of_mem_keys_nodup hnd hv
  rw [reconstruct_path, if_neg (by simp [hlook])]
  rw [reconLoop_chain hnd hchain [some g] fuel hfuel]
  have hplast : p.getLast? = some g := CfChain_last hchain
  have hpg : p.reverse = g :: p.reverse.drop 1 := by
    have hhead : p.reverse.head? = some g := by
      rw [List.head?_reverse]
      exact hplast
    cases hrev : p.reverse with
    | nil => rw [hrev] at hhead; simp at hhead
    | cons z zs =>
      rw [hrev] at hhead
      simp only [List.head?_cons, Option.some.injEq] at hhead
      subst hhead
      simp
  have hmain : ([some g] ++ (p.reverse.drop 1).map some).reverse = p.map some := by
    have h1 : [some g] ++ (p.reverse.drop 1).map some = (p.reverse).map some := by
      rw [hpg]
      simp only [List.map_cons]
      rw [← hpg]
      rfl
    rw [h1, ← List.map_reverse, List.reverse_reverse]
  rw [hmain]

/-! ## Facts about the state a search returns -/

theorem length_le_card_of_nodup {l : List Cell} {s : Finset Cell} (hnd : l.Nodup)
    (hsub : ∀ x ∈ l, x ∈ s) : l.length ≤ s.card := by
  rw [← List.toFinset_card_of_nodup hnd]
  exact Finset.card_le_card fun x hx => hsub x (List.mem_toFinset.mp hx)

/-- Everything the claims need about the state either search returns. -/
structure RunFacts (m : Maze) (st' : SState) : Prop where
  expl_nodup : st'.explored.Nodup
  expl_len : st'.explored.length ≤ m.rows * m.cols
  expl_sub_vis : ∀ c ∈ st'.explored, c ∈ st'.visited
  keys_nodup : (st'.came_from.map Prod.fst).Nodup
  keys_iff : ∀ c, (∃ v, (c, v) ∈ st'.came_from) ↔ c ∈ st'.visited
  start_none : (m.start, none) ∈ st'.came_from
  none_start : ∀ c v, (c, v) ∈ st'.came_from → v = none → c = m.start
  parent_no_goal : ∀ c u, (c, some u) ∈ st'.came_from → u ≠ m.goal
  parent_seen : ∀ l₁ c u l₂, st'.came_from = l₁ ++ (c, some u) :: l₂ →
    u ∈ l₂.map Prod.fst
  vis_reach : ∀ c ∈ st'.visited, reach m m.start c
  vis_pass : ∀ c ∈ st'.visited, m.passable c = some true
  chains : ∀ c ∈ st'.visited, ∃ p, CfChain st'.came_from m.start c p ∧ p.Nodup ∧
    IsWalk m p ∧ p.head? = some m.start ∧ p.getLast? = some c ∧
    ∀ x ∈ p, x ∈ st'.visited
  expl_ne : st'.explored ≠ []
  goal_out : ¬ reach m m.start m.goal → (m.goal ∉ st'.visited ∧
    ∀ c, c ∈ st'.explored ↔ reach m m.start c)
  goal_in : reach m m.start m.goal →
    ∃ pre, st'.explored = pre ++ [m.goal] ∧ m.goal ∉ pre

theorem run_facts (m : Maze) (lifo : Bool) (wf : MazeWF m) :
    ∃ st', searchLoop m lifo (searchFuel m) (initState m) = some st' ∧
      RunFacts m st' := by
  obtain ⟨st', hrun, hres⟩ := search_final m lifo wf
  refine ⟨st', hrun, ?_⟩
  rcases hres with ⟨hfr, hInv⟩ | ⟨stp, rest, hInv, hfr, rfl⟩
  · -- frontier exhausted: the goal is unreachable
    have hvisall : ∀ c ∈ st'.visited, c ∈ allCells m := fun c hc =>
      mem_allCells.mpr (hInv.vis_bounds c hc)
    have hexnd : st'.explored.Nodup := (List.nodup_append.mp hInv.nodup_ef).1
    have hexsub : ∀ c ∈ st'.explored, c ∈ st'.visited := fun c hc =>
      (hInv.vis_iff c).mpr (Or.inl hc)
    have hnr : ¬ reach m m.start m.goal := exhaust_goal_unreachable hInv hfr
    refine ⟨hexnd, ?_, hexsub, hInv.keys_nodup, hInv.keys_iff, hInv.start_none,
      hInv.none_start, hInv.parent_no_goal, hInv.parent_seen, hInv.vis_reach,
      hInv.vis_pass, hInv.chains, ?_, ?_, ?_⟩
    · calc st'.explored.length ≤ (allCells m).card :=
        length_le_card_of_nodup hexnd fun x hx => hvisall x (hexsub x hx)
      _ = m.rows * m.cols := card_allCells m
    · intro hnil
      have := hInv.start_vis
      rcases (hInv.vis_iff m.start).mp this with h1 | h1
      · rw [hnil] at h1; simp at h1
      · rw [hfr] at h1; simp at h1
    · intro _
      refine ⟨?_, ?_⟩
      · intro hgv
        exact hnr (hInv.vis_reach m.goal hgv)
      · intro c
        rw [exhaust_explored_iff_visited hInv hfr c]
        exact exhaust_visited_iff_reach hInv hfr c
    · intro hr
      exact absurd hr hnr
  · -- the goal was popped: the trace ends with it
    have hgvis : m.goal ∈ stp.visited :=
      (hInv.vis_iff m.goal).mpr (Or.inr (by rw [hfr]; simp))
    have hvisall : ∀ c ∈ stp.visited, c ∈ allCells m := fun c hc =>
      mem_allCells.mpr (hInv.vis_bounds c hc)
    have hexnd0 : stp.explored.Nodup := (List.nodup_append.mp hInv.nodup_ef).1
    have hexnd : (stp.explored ++ [m.goal]).Nodup := by
      rw [List.nodup_append]
      refine ⟨hexnd0, List.nodup_singleton _, ?_⟩
      intro x hx hxg
      rw [List.mem_singleton] at hxg
      subst hxg
      exact hInv.goal_not_expl hx
    have hexsub : ∀ c ∈ stp.explored ++ [m.goal], c ∈ stp.visited := by
      intro c hc
      rcases List.mem_append.mp hc with h1 | h1
      · exact (hInv.vis_iff c).mpr (Or.inl h1)
      · rw [List.mem_singleton] at h1
        subst h1
        exact hgvis
    refine ⟨hexnd, ?_, hexsub, hInv.keys_nodup, hInv.keys_iff, hInv.start_none,
      hInv.none_start, hInv.parent_no_goal, hInv.parent_seen, hInv.vis_reach,
      hInv.vis_pass, hInv.chains, by simp [popUpd], ?_, ?_⟩
    · calc (stp.explored ++ [m.goal]).length ≤ (allCells m).card :=
        length_le_card_of_nodup hexnd fun x hx => hvisall x (hexsub x hx)
      _ = m.rows * m.cols := card_allCells m
    · intro hnr
      exact absurd (hInv.vis_reach m.goal hgvis) hnr
    · intro _
      exact ⟨stp.explored, rfl, hInv.goal_not_expl⟩

theorem lookup_eq_none_of_not_mem {cf : List (Cell × Option Cell)} {c : Cell}
    (h : ∀ v, (c, v) ∉ cf) : List.lookup c cf = none := by
  induction cf with
  | nil => rfl
  | cons e cf ih =>
    obtain ⟨e1, e2⟩ := e
    have hne : c ≠ e1 := by
      intro he
      subst he
      exact h e2 (by simp)
    have hbeq : (c == e1) = false := beq_eq_false_iff_ne.mpr hne
    have hstep : List.lookup c ((e1, e2) :: cf) = List.lookup c cf := by
      show (match c == e1 with
        | true => some e2
        | false => List.lookup c cf) = List.lookup c cf
      rw [hbeq]
    rw [hstep]
    exact ih fun v hv => h v (by simp [hv])

theorem nodup_length_le {l l' : List Cell} (hnd : l.Nodup)
    (hsub : ∀ x ∈ l, x ∈ l') : l.length ≤ l'.length := by
  calc l.length = l.toFinset.card := (List.toFinset_card_of_nodup hnd).symm
  _ ≤ l'.toFinset.card := Finset.card_le_card fun x hx =>
      List.mem_toFinset.mpr (hsub x (List.mem_toFinset.mp hx))
  _ ≤ l'.length := l'.toFinset_card_le

/-- The combined outcome of either search: the returned state together with
what `reconstruct_path` does on its predecessor map. -/
theorem search_output (m : Maze) (lifo : Bool) (wf : MazeWF m) :
    ∃ st', searchLoop m lifo (searchFuel m) (initState m) = some st' ∧
      RunFacts m st' ∧
      ((¬ reach m m.start m.goal ∧
        reconstruct_path st'.came_from m.start m.goal (reconFuelOf st'.came_from) =
          .absent) ∨
       (reach m m.start m.goal ∧ ∃ p, CfChain st'.came_from m.start m.goal p ∧
         p.Nodup ∧ IsWalk m p ∧ p.head? = some m.start ∧
         p.getLast? = some m.goal ∧ (∀ x ∈ p, x ∈ st'.visited) ∧
         p.length ≤ reconFuelOf st'.came_from ∧
         (∀ fuel, p.length ≤ fuel →
           reconstruct_path st'.came_from m.start m.goal fuel =
             .found (p.map some)))) := by
  obtain ⟨st', hrun, hfacts⟩ := run_facts m lifo wf
  refine ⟨st', hrun, hfacts, ?_⟩
  by_cases hr : reach m m.start m.goal
  · right
    obtain ⟨pre, hpre, _⟩ := hfacts.goal_in hr
    have hgvis : m.goal ∈ st'.visited := by
      apply hfacts.expl_sub_vis
      rw [hpre]
      simp
    obtain ⟨p, hp1, hp2, hp3, hp4, hp5, hp6⟩ := hfacts.chains m.goal hgvis
    have hpkeys : ∀ x ∈ p, x ∈ st'.came_from.map Prod.fst := by
      intro x hx
      obtain ⟨v, hv⟩ := (hfacts.keys_iff x).mpr (hp6 x hx)
      exact List.mem_map.mpr ⟨(x, v), hv, rfl⟩
    have hplen : p.length ≤ reconFuelOf st'.came_from := by
      have h1 : p.length ≤ (st'.came_from.map Prod.fst).length :=
        nodup_length_le hp2 hpkeys
      rw [List.length_map] at h1
      rw [reconFuelOf]
      omega
    exact ⟨hr, p, hp1, hp2, hp3, hp4, hp5, hp6, hplen,
      fun fuel hfuel => reconstruct_of_chain hfacts.keys_nodup hp1 hfuel⟩
  · left
    refine ⟨hr, ?_⟩
    have hgout := (hfacts.goal_out hr).1
    have hnokey : ∀ v, (m.goal, v) ∉ st'.came_from := by
      intro v hv
      exact hgout ((hfacts.keys_iff m.goal).mp ⟨v, hv⟩)
    rw [reconstruct_path, if_pos (lookup_eq_none_of_not_mem hnokey)]

/-! ## Claim C5: traces have no duplicates and are bounded -/

/-- C5: on every constructed maze both searches return, and each exploration
trace contains no duplicate cells and has length at most `rows × cols`. -/
theorem trace_nodup_bounded (grid : List (List Char)) (m : Maze)
    (h : mkMaze grid = .ok m) :
    ∃ pb tb pd td, bfs m = some (pb, tb) ∧ dfs m = some (pd, td) ∧
      tb.Nodup ∧ tb.length ≤ m.rows * m.cols ∧
      td.Nodup ∧ td.length ≤ m.rows * m.cols := by
  obtain ⟨-, wf⟩ := mkMaze_wf h
  obtain ⟨stb, hrunb, hfb⟩ := run_facts m false wf
  obtain ⟨std, hrund, hfd⟩ := run_facts m true wf
  refine ⟨reconstruct_path stb.came_from m.start m.goal (reconFuelOf stb.came_from),
    stb.explored,
    reconstruct_path std.came_from m.start m.goal (reconFuelOf std.came_from),
    std.explored, ?_, ?_, hfb.expl_nodup, hfb.expl_len,
    hfd.expl_nodup, hfd.expl_len⟩
  · rw [bfs, bfsRun, hrunb]
    rfl
  · rw [dfs, dfsRun, hrund]
    rfl

/-- C5 witness: the theorem applied to the maze `["S.G"]`. -/
theorem trace_nodup_bounded_witness :
    ∃ pb tb pd td, bfs mazeRow = some (pb, tb) ∧ dfs mazeRow = some (pd, td) ∧
      tb.Nodup ∧ tb.length ≤ mazeRow.rows * mazeRow.cols ∧
      td.Nodup ∧ td.length ≤ mazeRow.rows * mazeRow.cols :=
  trace_nodup_bounded gridRow mazeRow (by rfl)

/-! ## Claim C4: an unreachable goal is a normal outcome -/

/-- C4: when the goal is unreachable from the start, both searches return
the absence marker together with a non-empty exploration trace whose cells
are exactly the passable cells reachable from the start; no error occurs. -/
theorem unreachable_goal_behavior (grid : List (List Char)) (m : Maze)
    (h : mkMaze grid = .ok m) (hnr : ¬ reach m m.start m.goal) :
    ∃ tb td, bfs m = some (.absent, tb) ∧ dfs m = some (.absent, td) ∧
      tb ≠ [] ∧ td ≠ [] ∧
      (∀ c, c ∈ tb ↔ reach m m.start c) ∧
      (∀ c, c ∈ td ↔ reach m m.start c) ∧
      (∀ c ∈ tb, m.passable c = some true) ∧
      (∀ c ∈ td, m.passable c = some true) := by
  obtain ⟨-, wf⟩ := mkMaze_wf h
  obtain ⟨stb, hrunb, hfb, hresb⟩ := search_output m false wf
  obtain ⟨std, hrund, hfd, hresd⟩ := search_output m true wf
  rcases hresb with ⟨-, habsb⟩ | ⟨hrb, -⟩
  swap
  · exact absurd hrb hnr
  rcases hresd with ⟨-, habsd⟩ | ⟨hrd, -⟩
  swap
  · exact absurd hrd hnr
  refine ⟨stb.explored, std.explored, ?_, ?_, hfb.expl_ne, hfd.expl_ne,
    (hfb.goal_out hnr).2, (hfd.goal_out hnr).2,
    fun c hc => hfb.vis_pass c (hfb.expl_sub_vis c hc),
    fun c hc => hfd.vis_pass c (hfd.expl_sub_vis c hc)⟩
  · rw [bfs, bfsRun, hrunb]
    show some (reconstruct_path stb.came_from m.start m.goal
      (reconFuelOf stb.came_from), stb.explored) = some (ReconResult.absent, stb.explored)
    rw [habsb]
  · rw [dfs, dfsRun, hrund]
    show some (reconstruct_path std.came_from m.start m.goal
      (reconFuelOf std.came_from), std.explored) = some (ReconResult.absent, std.explored)
    rw [habsd]

theorem mazeSharp_unreach : ¬ reach mazeSharp mazeSharp.start mazeSharp.goal := by
  have hstep : ∀ (n : Nat) (c : Cell), reachN mazeSharp n (0, 0) c → c = (0, 0) := by
    intro n
    induction n with
    | zero => intro c h; exact h
    | succ n ih =>
      intro c h
      rcases h with rfl | ⟨d, hd, _⟩
      · rfl
      · have hnone : mazeSharp.neighbors (0, 0) = [] := by rfl
        rw [hnone] at hd
        simp at hd
  rintro ⟨n, hn⟩
  exact absurd (hstep n mazeSharp.goal hn) (by decide)

/-- C4 witness: the theorem applied to the maze `["S#G"]`, whose goal is
walled off. -/
theorem unreachable_goal_behavior_witness :
    ∃ tb td, bfs mazeSharp = some (.absent, tb) ∧ dfs mazeSharp = some (.absent, td) ∧
      tb ≠ [] ∧ td ≠ [] ∧
      (∀ c, c ∈ tb ↔ reach mazeSharp mazeSharp.start c) ∧
      (∀ c, c ∈ td ↔ reach mazeSharp mazeSharp.start c) ∧
      (∀ c ∈ tb, mazeSharp.passable c = some true) ∧
      (∀ c ∈ td, mazeSharp.passable c = some true) :=
  unreachable_goal_behavior gridSharp mazeSharp (by rfl) mazeSharp_unreach

/-! ## Claim C8: the goal ends the trace and is never expanded -/

/-- C8: when the goal is reachable, both searches stop exactly when the goal
is popped: the trace is non-empty, ends with the goal, contains it exactly
once, and no cell is ever recorded as discovered from the goal. -/
theorem goal_last_expanded_once (grid : List (List Char)) (m : Maze)
    (h : mkMaze grid = .ok m) (hr : reach m m.start m.goal) :
    ∃ stb std pb pd, bfsRun m = some stb ∧ dfsRun m = some std ∧
      bfs m = some (pb, stb.explored) ∧ dfs m = some (pd, std.explored) ∧
      stb.explored ≠ [] ∧ stb.explored.getLast? = some m.goal ∧
      stb.explored.count m.goal = 1 ∧
      std.explored ≠ [] ∧ std.explored.getLast? = some m.goal ∧
      std.explored.count m.goal = 1 ∧
      (∀ c u, (c, some u) ∈ stb.came_from → u ≠ m.goal) ∧
      (∀ c u, (c, some u) ∈ std.came_from → u ≠ m.goal) := by
  obtain ⟨-, wf⟩ := mkMaze_wf h
  obtain ⟨stb, hrunb, hfb⟩ := run_facts m false wf
  obtain ⟨std, hrund, hfd⟩ := run_facts m true wf
  obtain ⟨preb, hpreb, hnotb⟩ := hfb.goal_in hr
  obtain ⟨pred, hpred, hnotd⟩ := hfd.goal_in hr
  have hcountb : stb.explored.count m.goal = 1 := by
    rw [hpreb, List.count_append, List.count_eq_zero.mpr hnotb]
    simp
  have hcountd : std.explored.count m.goal = 1 := by
    rw [hpred, List.count_append, List.count_eq_zero.mpr hnotd]
    simp
  refine ⟨stb, std,
    reconstruct_path stb.came_from m.start m.goal (reconFuelOf stb.came_from),
    reconstruct_path std.came_from m.start m.goal (reconFuelOf std.came_from),
    hrunb, hrund, ?_, ?_, hfb.expl_ne, ?_, hcountb, hfd.expl_ne, ?_, hcountd,
    hfb.parent_no_goal, hfd.parent_no_goal⟩
  · rw [bfs, bfsRun, hrunb]
    rfl
  · rw [dfs, dfsRun, hrund]
    rfl
  · rw [hpreb]
    exact List.getLast?_concat preb
  · rw [hpred]
    exact List.getLast?_concat pred

theorem mazeRow_reach : reach mazeRow mazeRow.start mazeRow.goal := ⟨2, by decide⟩

/-- C8 witness: the theorem applied to the maze `["S.G"]`. -/
theorem goal_last_expanded_once_witness :
    ∃ stb std pb pd, bfsRun mazeRow = some stb ∧ dfsRun mazeRow = some std ∧
      bfs mazeRow = some (pb, stb.explored) ∧ dfs mazeRow = some (pd, std.explored) ∧
      stb.explored ≠ [] ∧ stb.explored.getLast? = some mazeRow.goal ∧
      stb.explored.count mazeRow.goal = 1 ∧
      std.explored ≠ [] ∧ std.explored.getLast? = some mazeRow.goal ∧
      std.explored.count mazeRow.goal = 1 ∧
      (∀ c u, (c, some u) ∈ stb.came_from → u ≠ mazeRow.goal) ∧
      (∀ c u, (c, some u) ∈ std.came_from → u ≠ mazeRow.goal) :=
  goal_last_expanded_once gridRow mazeRow (by rfl) mazeRow_reach

/-! ## Claim C6: returned paths are valid -/

/-- C6: whenever either search returns a path, its cells are all passable,
it begins at the start, ends at the goal, and each consecutive pair of cells
differs by exactly one unit in exactly one coordinate. -/
theorem returned_path_valid (grid : List (List Char)) (m : Maze)
    (h : mkMaze grid = .ok m) :
    (∀ pb tb q, bfs m = some (pb, tb) → pb = .found q →
      ∃ p : List Cell, q = p.map some ∧ p.head? = some m.start ∧
        p.getLast? = some m.goal ∧ (∀ c ∈ p, m.passable c = some true) ∧
        p.Chain' UnitMove) ∧
    (∀ pd td q, dfs m = some (pd, td) → pd = .found q →
      ∃ p : List Cell, q = p.map some ∧ p.head? = some m.start ∧
        p.getLast? = some m.goal ∧ (∀ c ∈ p, m.passable c = some true) ∧
        p.Chain' UnitMove) := by
  obtain ⟨-, wf⟩ := mkMaze_wf h
  have key : ∀ lifo : Bool, ∀ pr tr q,
      (searchLoop m lifo (searchFuel m) (initState m)).map (fun st =>
        (reconstruct_path st.came_from m.start m.goal (reconFuelOf st.came_from),
          st.explored)) = some (pr, tr) → pr = .found q →
      ∃ p : List Cell, q = p.map some ∧ p.head? = some m.start ∧
        p.getLast? = some m.goal ∧ (∀ c ∈ p, m.passable c = some true) ∧
        p.Chain' UnitMove := by
    intro lifo pr tr q hout hfound
    obtain ⟨st', hrun, hfacts, hres⟩ := search_output m lifo wf
    rw [hrun] at hout
    have hpr : pr = reconstruct_path st'.came_from m.start m.goal
        (reconFuelOf st'.came_from) := by
      have := Option.some.inj hout
      exact (congrArg Prod.fst this).symm
    rcases hres with ⟨-, habs⟩ | ⟨-, p, _, _, hwalk, hhead, hlast, hsub, hplen, hrec⟩
    · rw [hpr, habs] at hfound
      exact absurd hfound.symm (by simp)
    · rw [hpr, hrec (reconFuelOf st'.came_from) hplen] at hfound
      have hq : q = p.map some := ReconResult.found.inj hfound.symm
      refine ⟨p, hq, hhead, hlast, ?_, ?_⟩
      · intro c hc
        exact hfacts.vis_pass c (hsub c hc)
      · exact hwalk.2.imp fun a b hab => (mem_neighbors.mp hab).1
  constructor
  · intro pb tb q hout hfound
    exact key false pb tb q (by rw [← hout, bfs, bfsRun]) hfound
  · intro pd td q hout hfound
    exact key true pd td q (by rw [← hout, dfs, dfsRun]) hfound

/-- C6 witness: the theorem applied to the maze `["S.G"]`. -/
theorem returned_path_valid_witness :
    (∀ pb tb q, bfs mazeRow = some (pb, tb) → pb = .found q →
      ∃ p : List Cell, q = p.map some ∧ p.head? = some mazeRow.start ∧
        p.getLast? = some mazeRow.goal ∧
        (∀ c ∈ p, mazeRow.passable c = some true) ∧ p.Chain' UnitMove) ∧
    (∀ pd td q, dfs mazeRow = some (pd, td) → pd = .found q →
      ∃ p : List Cell, q = p.map some ∧ p.head? = some mazeRow.start ∧
        p.getLast? = some mazeRow.goal ∧
        (∀ c ∈ p, mazeRow.passable c = some true) ∧ p.Chain' UnitMove) :=
  returned_path_valid gridRow mazeRow (by rfl)

/-! ## Claim C9: the predecessor-map invariant and the round trip -/

/-- The predecessor-map properties claimed of a search-produced `came_from`:
only the start maps to `none`; an entry's parent is a key that appears
later in the association list, i.e. was already a key when the entry was
prepended; and from every key the predecessor links walk back to the start
without repeating a cell. -/
def CameFromOK (m : Maze) (cf : List (Cell × Option Cell)) : Prop :=
  (m.start, none) ∈ cf ∧
  (∀ c v, (c, v) ∈ cf → v = none → c = m.start) ∧
  (∀ l₁ c u l₂, cf = l₁ ++ (c, some u) :: l₂ → u ∈ l₂.map Prod.fst) ∧
  (cf.map Prod.fst).Nodup ∧
  (∀ c ∈ cf.map Prod.fst, ∃ p, CfChain cf m.start c p ∧ p.Nodup)

/-- C9: the predecessor-map invariant holds at initialization, is preserved
by every loop iteration of either search, and holds of the returned map;
consequently `reconstruct_path` on a search-produced map terminates (its
result is stable under any sufficient fuel and is neither a fuel-out nor a
`KeyError`) and returns exactly the path the search itself returns. -/
theorem came_from_invariant_roundtrip (grid : List (List Char)) (m : Maze)
    (h : mkMaze grid = .ok m) :
    GInv m (initState m) ∧
    (∀ (lifo : Bool) (st : SState) (cur : Cell) (rest : List Cell),
      GInv m st → st.frontier = cur :: rest → cur ≠ m.goal →
      GInv m (expand m lifo cur (popUpd st cur rest))) ∧
    (∀ st', bfsRun m = some st' →
      CameFromOK m st'.came_from ∧
      ∃ r, r ≠ .fuelOut ∧ r ≠ .keyError ∧
        (∀ fuel, reconFuelOf st'.came_from ≤ fuel →
          reconstruct_path st'.came_from m.start m.goal fuel = r) ∧
        bfs m = some (r, st'.explored)) ∧
    (∀ st', dfsRun m = some st' →
      CameFromOK m st'.came_from ∧
      ∃ r, r ≠ .fuelOut ∧ r ≠ .keyError ∧
        (∀ fuel, reconFuelOf st'.came_from ≤ fuel →
          reconstruct_path st'.came_from m.start m.goal fuel = r) ∧
        dfs m = some (r, st'.explored)) := by
  obtain ⟨-, wf⟩ := mkMaze_wf h
  have key : ∀ (lifo : Bool) (st' : SState),
      searchLoop m lifo (searchFuel m) (initState m) = some st' →
      CameFromOK m st'.came_from ∧
      ∃ r, r ≠ .fuelOut ∧ r ≠ .keyError ∧
        (∀ fuel, reconFuelOf st'.came_from ≤ fuel →
          reconstruct_path st'.came_from m.start m.goal fuel = r) := by
    intro lifo st' hrun'
    obtain ⟨st2, hrun2, hfacts, hres⟩ := search_output m lifo wf
    rw [hrun'] at hrun2
    obtain rfl : st' = st2 := Option.some.inj hrun2
    constructor
    · refine ⟨hfacts.start_none, hfacts.none_start, hfacts.parent_seen,
        hfacts.keys_nodup, ?_⟩
      intro c hc
      obtain ⟨⟨a, v⟩, hmem, rfl⟩ := List.mem_map.mp hc
      obtain ⟨p, hp1, hp2, _⟩ := hfacts.chains a ((hfacts.keys_iff a).mp ⟨v, hmem⟩)
      exact ⟨p, hp1, hp2⟩
    · rcases hres with ⟨hnr, -⟩ | ⟨-, p, -, -, -, -, -, -, hplen, hrec⟩
      · refine ⟨.absent, by simp, by simp, ?_⟩
        intro fuel _
        have hgout := (hfacts.goal_out hnr).1
        have hnokey : ∀ v, (m.goal, v) ∉ st'.came_from := fun v hv =>
          hgout ((hfacts.keys_iff m.goal).mp ⟨v, hv⟩)
        rw [reconstruct_path, if_pos (lookup_eq_none_of_not_mem hnokey)]
      · refine ⟨.found (p.map some), by simp, by simp, ?_⟩
        intro fuel hfuel
        exact hrec fuel (by omega)
  refine ⟨ginv_init wf, fun lifo _ _ _ h1 h2 h3 => ginv_step m lifo h1 h2 h3, ?_, ?_⟩
  · intro st' hrun'
    have hrun'' : searchLoop m false (searchFuel m) (initState m) = some st' := by
      rw [← hrun', bfsRun]
    obtain ⟨hok, r, hr1, hr2, hr3⟩ := key false st' hrun''
    refine ⟨hok, r, hr1, hr2, hr3, ?_⟩
    rw [bfs, bfsRun, hrun'']
    show some (reconstruct_path st'.came_from m.start m.goal
      (reconFuelOf st'.came_from), st'.explored) = some (r, st'.explored)
    rw [hr3 (reconFuelOf st'.came_from) (le_refl _)]
  · intro st' hrun'
    have hrun'' : searchLoop m true (searchFuel m) (initState m) = some st' := by
      rw [← hrun', dfsRun]
    obtain ⟨hok, r, hr1, hr2, hr3⟩ := key true st' hrun''
    refine ⟨hok, r, hr1, hr2, hr3, ?_⟩
    rw [dfs, dfsRun, hrun'']
    show some (reconstruct_path st'.came_from m.start m.goal
      (reconFuelOf st'.came_from), st'.explored) = some (r, st'.explored)
    rw [hr3 (reconFuelOf st'.came_from) (le_refl _)]

/-- C9 witness: the theorem applied to the maze `["S.G"]`. -/
theorem came_from_invariant_roundtrip_witness :
    GInv mazeRow (initState mazeRow) ∧
    (∀ (lifo : Bool) (st : SState) (cur : Cell) (rest : List Cell),
      GInv mazeRow st → st.frontier = cur :: rest → cur ≠ mazeRow.goal →
      GInv mazeRow (expand mazeRow lifo cur (popUpd st cur rest))) ∧
    (∀ st', bfsRun mazeRow = some st' →
      CameFromOK mazeRow st'.came_from ∧
      ∃ r, r ≠ .fuelOut ∧ r ≠ .keyError ∧
        (∀ fuel, reconFuelOf st'.came_from ≤ fuel →
          reconstruct_path st'.came_from mazeRow.start mazeRow.goal fuel = r) ∧
        bfs mazeRow = some (r, st'.explored)) ∧
    (∀ st', dfsRun mazeRow = some st' →
      CameFromOK mazeRow st'.came_from ∧
      ∃ r, r ≠ .fuelOut ∧ r ≠ .keyError ∧
        (∀ fuel, reconFuelOf st'.came_from ≤ fuel →
          reconstruct_path st'.came_from mazeRow.start mazeRow.goal fuel = r) ∧
        dfs mazeRow = some (r, st'.explored)) :=
  came_from_invariant_roundtrip gridRow mazeRow (by rfl)

/-! ## Uniqueness of predecessor chains -/

theorem mem_val_unique {cf : List (Cell × Option Cell)}
    (hnd : (cf.map Prod.fst).Nodup) {c : Cell} {v1 v2 : Option Cell}
    (h1 : (c, v1) ∈ cf) (h2 : (c, v2) ∈ cf) : v1 = v2 := by
  have l1 := lookup_of_mem_keys_nodup hnd h1
  have l2 := lookup_of_mem_keys_nodup hnd h2
  exact Option.some.inj (l1.symm.trans l2)

theorem CfChain_unique {cf : List (Cell × Option Cell)}
    (hnd : (cf.map Prod.fst).Nodup) {s c : Cell} {p q : List Cell}
    (h1 : CfChain cf s c p) : CfChain cf s c q → p = q := by
  induction h1 generalizing q with
  | base _ =>
    intro h2
    cases h2 with
    | base _ => rfl
    | step _ _ hne => exact absurd rfl hne
  | step hch hmem hne ih =>
    intro h2
    cases h2 with
    | base _ => exact absurd rfl hne
    | step hch' hmem' _ =>
      have huv := mem_val_unique hnd hmem hmem'
      have hu := Option.some.inj huv
      subst hu
      rw [ih hch']

/-! ## The BFS layer invariant (optimality of the FIFO discipline) -/

/-- The extra invariant the FIFO frontier maintains: the frontier is a block
of distance-`d` cells followed by a block of distance-`d + 1` cells, all cells
closer than `d` are already expanded, every distance-`d` cell is already
discovered, and the recorded predecessor chain of every visited cell has
exactly `dist + 1` cells. -/
structure LInv (m : Maze) (st : SState) (d : Nat) : Prop where
  front_split : ∃ A B, st.frontier = A ++ B ∧ (∀ c ∈ A, hasDist m c d) ∧
    (∀ c ∈ B, hasDist m c (d + 1))
  expl_le : ∀ c ∈ st.explored, ∃ k, hasDist m c k ∧ k ≤ d
  lower_expl : ∀ c k, hasDist m c k → k < d → c ∈ st.explored
  layer_cov : ∀ c, hasDist m c d → (c ∈ st.explored ∨ c ∈ st.frontier)
  chain_len : ∀ c ∈ st.visited, ∀ k, hasDist m c k →
    ∃ p, CfChain st.came_from m.start c p ∧ p.length = k + 1

theorem hasDist_start (m : Maze) : hasDist m m.start 0 :=
  ⟨rfl, fun k _ => Nat.zero_le k⟩

theorem linv_init {m : Maze} (wf : MazeWF m) : LInv m (initState m) 0 := by
  refine ⟨⟨[m.start], [], by simp [initState], ?_, by simp⟩, ?_, ?_, ?_, ?_⟩
  · intro c hc
    rw [List.mem_singleton] at hc
    subst hc
    exact hasDist_start m
  · intro c hc
    simp [initState] at hc
  · intro c k _ hk
    omega
  · intro c hc
    have : c = m.start := by
      have h0 := hc.1
      rw [reachN] at h0
      exact h0
    subst this
    right
    simp [initState]
  · intro c hc k hk
    simp only [initState, Finset.mem_singleton] at hc
    subst hc
    have : k = 0 := hasDist_unique hk (hasDist_start m)
    subst this
    exact ⟨[m.start], CfChain.base (by simp [initState]), rfl⟩

theorem linv_shift {m : Maze} {st : SState} {d : Nat} (hG : GInv m st)
    (hL : LInv m st d) (hall : ∀ c ∈ st.frontier, hasDist m c (d + 1)) :
    LInv m st (d + 1) := by
  have hlayer_d_expl : ∀ c, hasDist m c d → c ∈ st.explored := by
    intro c hc
    rcases hL.layer_cov c hc with h1 | h1
    · exact h1
    · have := hasDist_unique hc (hall c h1)
      omega
  refine ⟨⟨st.frontier, [], by simp, hall, by simp⟩, ?_, ?_, ?_, hL.chain_len⟩
  · intro c hc
    obtain ⟨k, hk, hle⟩ := hL.expl_le c hc
    exact ⟨k, hk, by omega⟩
  · intro c k hk hlt
    by_cases hkd : k < d
    · exact hL.lower_expl c k hk hkd
    · have : k = d := by omega
      subst this
      exact hlayer_d_expl c hk
  · intro c hc
    obtain ⟨u, hu, hnb⟩ := hasDist_pred hc
    have huex : u ∈ st.explored := hlayer_d_expl u hu
    have hcv : c ∈ st.visited := hG.expl_expanded u huex c hnb
    exact (hG.vis_iff c).mp hcv

/-- A fresh neighbor of a distance-`d` frontier cell is at distance exactly
`d + 1`. -/
theorem fresh_dist {m : Maze} {st : SState} {cur : Cell} {d : Nat}
    (hG : GInv m st) (hL : LInv m st d) (hcur : hasDist m cur d)
    (hcurv : cur ∈ st.visited) {x : Cell} (hnb : x ∈ m.neighbors cur)
    (hxv : x ∉ st.visited) : hasDist m x (d + 1) := by
  have hreach : reachN m (d + 1) m.start x := reachN_step_last hcur.1 hnb
  obtain ⟨k, hk⟩ := reach_hasDist ⟨d + 1, hreach⟩
  have hkle : k ≤ d + 1 := hk.2 (d + 1) hreach
  by_cases hlt : k < d
  · exact absurd ((hG.vis_iff x).mpr (Or.inl (hL.lower_expl x k hk hlt))) hxv
  · by_cases heq : k = d
    · subst heq
      rcases hL.layer_cov x hk with h1 | h1
      · exact absurd ((hG.vis_iff x).mpr (Or.inl h1)) hxv
      · exact absurd ((hG.vis_iff x).mpr (Or.inr h1)) hxv
    · have : k = d + 1 := by omega
      subst this
      exact hk

theorem linv_mk (m : Maze) (fr : List Cell) (vis : Finset Cell)
    (cf : List (Cell × Option Cell)) (ex : List Cell) (d : Nat)
    (h1 : ∃ A B, fr = A ++ B ∧ (∀ c ∈ A, hasDist m c d) ∧
      (∀ c ∈ B, hasDist m c (d + 1)))
    (h2 : ∀ c ∈ ex, ∃ k, hasDist m c k ∧ k ≤ d)
    (h3 : ∀ c k, hasDist m c k → k < d → c ∈ ex)
    (h4 : ∀ c, hasDist m c d → (c ∈ ex ∨ c ∈ fr))
    (h5 : ∀ c ∈ vis, ∀ k, hasDist m c k →
      ∃ p, CfChain cf m.start c p ∧ p.length = k + 1) :
    LInv m ⟨fr, vis, cf, ex⟩ d :=
  ⟨h1, h2, h3, h4, h5⟩

theorem linv_step {m : Maze} {st : SState} {cur : Cell} {rest A B : List Cell}
    {d : Nat} (hG : GInv m st) (hL : LInv m st d)
    (hfr : st.frontier = cur :: rest) (hAB : rest = A ++ B)
    (hcur : hasDist m cur d) (hA : ∀ c ∈ A, hasDist m c d)
    (hB : ∀ c ∈ B, hasDist m c (d + 1)) :
    LInv m (expand m false cur (popUpd st cur rest)) d := by
  have hcurv : cur ∈ st.visited := (hG.vis_iff cur).mpr (Or.inr (by rw [hfr]; simp))
  have hFd : ∀ x ∈ freshOf st.visited (m.neighbors cur), hasDist m x (d + 1) := by
    intro x hx
    obtain ⟨hnb, hxv⟩ := mem_freshOf.mp hx
    exact fresh_dist hG hL hcur hcurv hnb hxv
  have hFstart : ∀ x ∈ freshOf st.visited (m.neighbors cur), x ≠ m.start := by
    intro x hx he
    exact (mem_freshOf.mp hx).2 (he ▸ hG.start_vis)
  rw [expand_eq]
  refine linv_mk m _ _ _ _ d ?_ ?_ ?_ ?_ ?_
  · refine ⟨A, B ++ freshOf st.visited (m.neighbors cur), ?_, hA, ?_⟩
    · show (if false then _ else rest ++ freshOf st.visited (m.neighbors cur)) = _
      rw [if_neg (by simp), hAB, List.append_assoc]
    · intro c hc
      rcases List.mem_append.mp hc with h1 | h1
      · exact hB c h1
      · exact hFd c h1
  · intro c hc
    rcases List.mem_append.mp hc with h1 | h1
    · exact hL.expl_le c h1
    · rw [List.mem_singleton] at h1
      subst h1
      exact ⟨d, hcur, le_refl d⟩
  · intro c k hk hlt
    exact List.mem_append.mpr (Or.inl (hL.lower_expl c k hk hlt))
  · intro c hc
    rcases hL.layer_cov c hc with h1 | h1
    · exact Or.inl (List.mem_append.mpr (Or.inl h1))
    · rw [hfr] at h1
      rcases List.mem_cons.mp h1 with rfl | h2
      · exact Or.inl (List.mem_append.mpr (Or.inr (by simp)))
      · refine Or.inr ?_
        show c ∈ if false then _ else rest ++ freshOf st.visited (m.neighbors cur)
        rw [if_neg (by simp)]
        exact List.mem_append.mpr (Or.inl h2)
  · intro c hc k hk
    have hsubcf : ∀ e ∈ st.came_from,
        e ∈ ((freshOf st.visited (m.neighbors cur)).reverse.map
          fun c => (c, some cur)) ++ st.came_from :=
      fun e he => List.mem_append.mpr (Or.inr he)
    rcases Finset.mem_union.mp hc with h1 | h1
    · obtain ⟨p, hp1, hp2⟩ := hL.chain_len c h1 k hk
      exact ⟨p, CfChain_mono hsubcf hp1, hp2⟩
    · rw [List.mem_toFinset] at h1
      have hkd : k = d + 1 := hasDist_unique hk (hFd c h1)
      subst hkd
      obtain ⟨p, hp1, hp2⟩ := hL.chain_len cur hcurv d hcur
      have hmemN : (c, some cur) ∈
          ((freshOf st.visited (m.neighbors cur)).reverse.map
            fun c => (c, some cur)) ++ st.came_from := by
        apply List.mem_append.mpr
        left
        exact List.mem_map.mpr ⟨c, List.mem_reverse.mpr h1, rfl⟩
      refine ⟨p ++ [c], CfChain.step (CfChain_mono hsubcf hp1) hmemN (hFstart c h1), ?_⟩
      rw [List.length_append, hp2]
      simp

theorem bp_step (m : Maze) {st : SState} {cur : Cell} {rest : List Cell}
    (h : GInv m st ∧ ∃ d, LInv m st d)
    (hfr : st.frontier = cur :: rest) (hg : cur ≠ m.goal) :
    GInv m (expand m false cur (popUpd st cur rest)) ∧
      ∃ d, LInv m (expand m false cur (popUpd st cur rest)) d := by
  obtain ⟨hG, d, hL⟩ := h
  refine ⟨ginv_step m false hG hfr hg, ?_⟩
  obtain ⟨A, B, hsplit, hA, hB⟩ := hL.front_split
  cases A with
  | nil =>
    have hall : ∀ c ∈ st.frontier, hasDist m c (d + 1) := by
      rw [hsplit]
      simpa using hB
    have hL' := linv_shift hG hL hall
    have hcur : hasDist m cur (d + 1) := hall cur (by rw [hfr]; simp)
    have hrest : ∀ c ∈ rest, hasDist m c (d + 1) := fun c hc =>
      hall c (by rw [hfr]; simp [hc])
    exact ⟨d + 1, linv_step hG hL' hfr (List.append_nil rest).symm hcur hrest (by simp)⟩
  | cons a A' =>
    rw [hfr] at hsplit
    simp only [List.cons_append, List.cons.injEq] at hsplit
    obtain ⟨ha, hrest⟩ := hsplit
    subst ha
    exact ⟨d, linv_step hG hL hfr hrest (hA cur (by simp))
      (fun c hc => hA c (by simp [hc])) hB⟩

/-! ## Claim C1: BFS returns a shortest path -/

/-- C1: on every constructed maze whose goal is reachable, BFS returns a
path that is itself a duplicate-free start-to-goal walk and whose number of
cells is minimal among all start-to-goal simple paths (indeed among all
start-to-goal walks) in the 4-connected passable-cell graph. -/
theorem bfs_shortest_path (grid : List (List Char)) (m : Maze)
    (h : mkMaze grid = .ok m) (hr : reach m m.start m.goal) :
    ∃ (p t : List Cell), bfs m = some (.found (p.map some), t) ∧
      p.head? = some m.start ∧ p.getLast? = some m.goal ∧ p.Nodup ∧
      p.Chain' (fun a b => b ∈ m.neighbors a) ∧
      ∀ q : List Cell, q ≠ [] → q.Chain' (fun a b => b ∈ m.neighbors a) →
        q.head? = some m.start → q.getLast? = some m.goal → q.Nodup →
        p.length ≤ q.length := by
  obtain ⟨-, wf⟩ := mkMaze_wf h
  obtain ⟨st', hrun, hres⟩ := searchLoop_run m false
    (fun st => GInv m st ∧ ∃ d, LInv m st d)
    (fun st cur rest hP h2 h3 => bp_step m hP h2 h3) (searchFuel m) (initState m)
    ⟨ginv_init wf, 0, linv_init wf⟩ (meas_init_lt wf)
  rcases hres with ⟨hfrnil, hG', -⟩ | ⟨stp, rest, ⟨hG, d, hL⟩, hfr, rfl⟩
  · exact absurd hr (exhaust_goal_unreachable hG' hfrnil)
  · have hgvis : m.goal ∈ stp.visited :=
      (hG.vis_iff _).mpr (Or.inr (by rw [hfr]; simp))
    obtain ⟨k, hk⟩ := reach_hasDist hr
    obtain ⟨pl, hpl1, hpl2⟩ := hL.chain_len m.goal hgvis k hk
    obtain ⟨p0, hp01, hp02, hp03, hp04, hp05, hp06⟩ := hG.chains m.goal hgvis
    have hpeq : p0 = pl := CfChain_unique hG.keys_nodup hp01 hpl1
    have hlen : p0.length = k + 1 := by rw [hpeq]; exact hpl2
    have hpkeys : ∀ x ∈ p0, x ∈ stp.came_from.map Prod.fst := by
      intro x hx
      obtain ⟨v, hv⟩ := (hG.keys_iff x).mpr (hp06 x hx)
      exact List.mem_map.mpr ⟨(x, v), hv, rfl⟩
    have hplen : p0.length ≤ reconFuelOf stp.came_from := by
      have h1 : p0.length ≤ (stp.came_from.map Prod.fst).length :=
        nodup_length_le hp02 hpkeys
      rw [List.length_map] at h1
      rw [reconFuelOf]
      omega
    have hrecon := reconstruct_of_chain hG.keys_nodup hp01 hplen
    refine ⟨p0, (popUpd stp m.goal rest).explored, ?_, hp04, hp05, hp02, hp03.2, ?_⟩
    · rw [bfs, bfsRun, hrun]
      show some (reconstruct_path stp.came_from m.start m.goal
        (reconFuelOf stp.came_from), (popUpd stp m.goal rest).explored) =
        some (.found (p0.map some), (popUpd stp m.goal rest).explored)
      rw [hrecon]
    · intro q hq1 hq2 hq3 hq4 _
      have hreachq := isWalk_reachN ⟨hq1, hq2⟩ hq3 hq4
      have hmin := hk.2 (q.length - 1) hreachq
      have hqlen : 1 ≤ q.length := List.length_pos.mpr hq1
      omega

theorem mazeRow_reach2 : reach mazeRow mazeRow.start mazeRow.goal := ⟨2, by decide⟩

/-- C1 witness: the theorem applied to the maze `["S.G"]`. -/
theorem bfs_shortest_path_witness :
    ∃ (p t : List Cell), bfs mazeRow = some (.found (p.map some), t) ∧
      p.head? = some mazeRow.start ∧ p.getLast? = some mazeRow.goal ∧ p.Nodup ∧
      p.Chain' (fun a b => b ∈ mazeRow.neighbors a) ∧
      ∀ q : List Cell, q ≠ [] → q.Chain' (fun a b => b ∈ mazeRow.neighbors a) →
        q.head? = some mazeRow.start → q.getLast? = some mazeRow.goal → q.Nodup →
        p.length ≤ q.length :=
  bfs_shortest_path gridRow mazeRow (by rfl) mazeRow_reach2
